import Mathlib

set_option maxRecDepth 8000

/-!
Shallow embedding of the TinyJson library (src/include/TinyJson.h) in Lean 4.

The C++ code parses at the granularity of decoded Unicode code points
(char32_t): the input bytes are decoded once up front and every stream
primitive works on code points.  We therefore model text as a list of
natural numbers (one per code point) and elide the UTF-8/UTF-32 byte
conversions (U32ToU8 / U8ToU32), which are mutually inverse on sequences of
Unicode scalar values; decoding failures (EncodingError) are outside this
embedding.  Machine integers appear as follows: the long long payload of an
integer value is an Int whose 64-bit range is enforced exactly where the
source enforces it (std::stoll's out_of_range); the double payload is
modelled exactly (a rational, plus infinities and NaN) rather than as a
rounded binary64, since no claim inspects a double's rounded value.

C++ exceptions become an Except monad: every throw in the source is an
error value here, tagged by which exception the source raises.
-/

namespace TinyJson

/-- A decoded text: one natural number per Unicode code point (char32_t). -/
abbrev Str := List Nat

/-- The enum json_t of TinyJson.h (value kinds). -/
inductive json_t where
  | string
  | number_integer
  | number_double
  | array
  | boolean
  | object
  | null
  | invalid
deriving DecidableEq, Repr

/-- The payload of a number_double value.  std::stod produces a binary64
double; we keep the exactly-parsed magnitude as a rational and keep the
special values produced by strtod.  No claim observes the rounding from the
decimal literal to binary64, so the rational stands in for the double. -/
inductive DVal where
  | finite (q : ℚ)
  | posInf
  | negInf
  | nan
deriving DecidableEq, Repr

/-- The class json of TinyJson.h: a tagged value.  The void* payload plus
type tag of the source is a closed sum here, one constructor per json_t
tag.  json_object is std::map with lexicographic key order; it appears as
an association list that the mutators keep sorted by key (the map's
iteration order), and json_array is a std::vector, an ordered list. -/
inductive json where
  | string (s : Str)
  | number_integer (n : Int)
  | number_double (d : DVal)
  | array (elems : List json)
  | boolean (b : Bool)
  | object (members : List (Str × json))
  | null
  | invalid

/-- The type tag of a value (json::type). -/
def json.type : json → json_t
  | .string _ => .string
  | .number_integer _ => .number_integer
  | .number_double _ => .number_double
  | .array _ => .array
  | .boolean _ => .boolean
  | .object _ => .object
  | .null => .null
  | .invalid => .invalid

/-- json::type_name: the printable name of a kind (both number kinds print
as "number"). -/
def json_t.name : json_t → String
  | .string => "string"
  | .array => "array"
  | .object => "object"
  | .number_double => "number"
  | .number_integer => "number"
  | .boolean => "boolean"
  | .null => "null"
  | .invalid => "invalid"

/-- json::type_name applied to a value. -/
def json.type_name (j : json) : String := j.type.name

/-- The exceptions the source can raise.  format covers the
std::runtime_error throws with the given message (the FormatError family);
typeMismatch is the runtime_error built by CHECK_TYPE_MISMATCH, carrying
first the value's actual type and second the expected type (in that order,
as the macro receives them); invalidArgument and outOfRange are the
std::invalid_argument / std::out_of_range raised by std::stoll and
std::stod; fuel is a modelling artifact: the recursion budget of the
embedded parser ran out (never reached from the entry point parse, whose
budget exceeds any possible recursion depth of the source). -/
inductive Err where
  | format (msg : String)
  | typeMismatch (t1 t2 : json_t)
  | invalidArgument (fn : String)
  | outOfRange (fn : String)
  | fuel
deriving DecidableEq, Repr

/-! ## Character classes and low-level string utilities -/

/-- std::isspace in the C locale: space, \t, \n, \v, \f, \r. -/
def isspaceCp (c : Nat) : Bool := c = 32 || (9 ≤ c && c ≤ 13)

/-- Membership in the whitespace set " \t\r\n" used by trim (note: narrower
than isspace: no \v, no \f). -/
def isTrimWs (c : Nat) : Bool := c = 32 || c = 9 || c = 13 || c = 10

/-- The trim helper of TinyJson.h: strip the characters of " \t\r\n" from
both ends (find_first_not_of / find_last_not_of). -/
def trim (s : Str) : Str :=
  ((s.dropWhile isTrimWs).reverse.dropWhile isTrimWs).reverse

/-- Digit 0-9. -/
def isDigitCp (c : Nat) : Bool := 48 ≤ c && c ≤ 57

/-- isxdigit: 0-9, a-f, A-F. -/
def isxdigitCp (c : Nat) : Bool :=
  (48 ≤ c && c ≤ 57) || (97 ≤ c && c ≤ 102) || (65 ≤ c && c ≤ 70)

/-- Value of a hex digit. -/
def hexVal (c : Nat) : Nat :=
  if 48 ≤ c && c ≤ 57 then c - 48
  else if 97 ≤ c && c ≤ 102 then c - 87
  else if 65 ≤ c && c ≤ 70 then c - 55
  else 0

/-- std::tolower on a code point: only ASCII A-Z move (the source feeds
char32_t values through tolower; beyond ASCII it is the identity). -/
def tolowerCp (c : Nat) : Nat := if 65 ≤ c && c ≤ 90 then c + 32 else c

/-- Numeric value of a digit string (most significant first). -/
def digitsVal (ds : Str) : Nat := ds.foldl (fun a d => 10 * a + (d - 48)) 0

/-! ## Cursor primitives (the char32_t stream of the source)

A stream position is the remaining suffix of the decoded input.  peek at
end of input yields the EOF sentinel, modelled by Option.none. -/

/-- skip_space: consume contiguous whitespace (std::isspace). -/
def skip_space (s : Str) : Str := s.dropWhile isspaceCp

/-- peek_next_non_space: skip whitespace, then peek.  Returns the peeked
code point (none at EOF) together with the advanced stream. -/
def peek_next_non_space (s : Str) : Option Nat × Str :=
  let s1 := skip_space s
  (s1.head?, s1)

/-- get_next_non_space: skip whitespace, then consume one code point. -/
def get_next_non_space (s : Str) : Option Nat × Str :=
  let s1 := skip_space s
  (s1.head?, s1.tail)

/-- skip_char(expected): skip whitespace and consume one code point, which
must equal the expected one; otherwise (including at end of input) the
source throws runtime_error "expected char '<c>' not found" (the expected
character is interpolated into the message; we keep a fixed message). -/
def skip_char (expected : Nat) (s : Str) : Except Err Str :=
  match skip_space s with
  | c :: rest =>
      if c = expected then .ok rest
      else .error (.format "expected char not found")
  | [] => .error (.format "expected char not found")

/-! ## The sorted map backing json_object

json_object is std::map of std::string to json: unique keys, iterated in
the lexicographic order of std::string's operator<.  Keys are UTF-8 byte
strings in the source; byte-wise lexicographic order of UTF-8 coincides
with code-point lexicographic order, modelled here on Str. -/

/-- Lexicographic strict order on keys (std::string operator<). -/
def keyLt : Str → Str → Bool
  | [], [] => false
  | [], _ :: _ => true
  | _ :: _, [] => false
  | a :: as, b :: bs => a < b || (a = b && keyLt as bs)

/-- Assignment members[name] = value of std::map: insert at the sorted
position, overwriting an existing entry with the same key. -/
def mapInsert (k : Str) (v : json) : List (Str × json) → List (Str × json)
  | [] => [(k, v)]
  | (k', v') :: rest =>
      if keyLt k k' then (k, v) :: (k', v') :: rest
      else if k = k' then (k, v) :: rest
      else (k', v') :: mapInsert k v rest

/-- Lookup of std::map::find: first entry with the given key. -/
def lookupKey (k : Str) : List (Str × json) → Option json
  | [] => none
  | (k', v) :: rest => if k = k' then some v else lookupKey k rest

/-! ## Typed getters and mutators (json class methods)

Each getter runs CHECK_TYPE_MISMATCH(this type, expected kind) and then
returns a copy of the payload; a mismatch throws the runtime_error built
by the macro, carried here as Err.typeMismatch with the same two
arguments. -/

/-- json::get_string. -/
def json.get_string : json → Except Err Str
  | .string s => .ok s
  | j => .error (.typeMismatch j.type .string)

/-- json::get_integer. -/
def json.get_integer : json → Except Err Int
  | .number_integer n => .ok n
  | j => .error (.typeMismatch j.type .number_integer)

/-- json::get_double. -/
def json.get_double : json → Except Err DVal
  | .number_double d => .ok d
  | j => .error (.typeMismatch j.type .number_double)

/-- json::get_bool. -/
def json.get_bool : json → Except Err Bool
  | .boolean b => .ok b
  | j => .error (.typeMismatch j.type .boolean)

/-- json::get_object. -/
def json.get_object : json → Except Err (List (Str × json))
  | .object ms => .ok ms
  | j => .error (.typeMismatch j.type .object)

/-- json::get_array. -/
def json.get_array : json → Except Err (List json)
  | .array es => .ok es
  | j => .error (.typeMismatch j.type .array)

/-- json::get_null (returns nullptr on success). -/
def json.get_null : json → Except Err Unit
  | .null => .ok ()
  | j => .error (.typeMismatch j.type .null)

/-- json::has_member. -/
def json.has_member (j : json) (member_name : Str) : Except Err Bool :=
  match j with
  | .object ms => .ok (lookupKey member_name ms).isSome
  | _ => .error (.typeMismatch j.type .object)

/-- json::add_member: map assignment, silently overwriting an existing
entry with the same key. -/
def json.add_member (j : json) (member_name : Str) (member_value : json) :
    Except Err json :=
  match j with
  | .object ms => .ok (.object (mapInsert member_name member_value ms))
  | _ => .error (.typeMismatch j.type .object)

/-- json::add_element: vector push_back. -/
def json.add_element (j : json) (elem : json) : Except Err json :=
  match j with
  | .array es => .ok (.array (es ++ [elem]))
  | _ => .error (.typeMismatch j.type .array)

/-- json::size: element count of an array, member count of an object;
any other kind throws a runtime_error naming the actual type. -/
def json.size (j : json) : Except Err Nat :=
  match j with
  | .array es => .ok es.length
  | .object ms => .ok ms.length
  | _ =>
      .error (.format
        ("Unexpected json type " ++ j.type_name ++ ", expected array or object"))

/-- The operator[] taking a key: object member access; a missing key
throws runtime_error "key <k> not found." (fixed message here). -/
def json.index_key (j : json) (key : Str) : Except Err json :=
  match j with
  | .object ms =>
      match lookupKey key ms with
      | some v => .ok v
      | none => .error (.format "key not found")
  | _ => .error (.typeMismatch j.type .object)

/-- The operator[] taking an int index: array element access with a range
check (negative or past the end throws "index out of range"). -/
def json.index_int (j : json) (index : Int) : Except Err json :=
  match j with
  | .array es =>
      if h : 0 ≤ index ∧ index.toNat < es.length then .ok (es.get ⟨index.toNat, h.2⟩)
      else .error (.format "index out of range")
  | _ => .error (.typeMismatch j.type .array)

/-- Equality of the double payloads (the == on two C++ doubles): NaN is
never equal to anything, including itself. -/
def dvalEq : DVal → DVal → Bool
  | .finite a, .finite b => a = b
  | .posInf, .posInf => true
  | .negInf, .negInf => true
  | _, _ => false

mutual
/-- json::operator==: same kind and recursively equal payload; the default
switch branch makes invalid unequal to everything, itself included. -/
def jeq : json → json → Bool
  | .string a, .string b => a = b
  | .number_integer a, .number_integer b => a = b
  | .number_double a, .number_double b => dvalEq a b
  | .boolean a, .boolean b => a = b
  | .null, .null => true
  | .array a, .array b => jeqElems a b
  | .object a, .object b => jeqMems a b
  | _, _ => false
/-- Element-wise equality of json_array (std::vector operator==). -/
def jeqElems : List json → List json → Bool
  | [], [] => true
  | a :: as, b :: bs => jeq a b && jeqElems as bs
  | _, _ => false
/-- Pair-wise equality of json_object (std::map operator==). -/
def jeqMems : List (Str × json) → List (Str × json) → Bool
  | [], [] => true
  | (k1, v1) :: as, (k2, v2) :: bs => k1 = k2 && jeq v1 v2 && jeqMems as bs
  | _, _ => false
end

/-! ## Decimal rendering (std::to_string) -/

/-- Digits of a natural number, most significant first; the fuel argument
(any bound above the digit count) only makes the recursion structural. -/
def natDigitsGo : Nat → Nat → Str → Str
  | 0, _, acc => acc
  | f + 1, n, acc =>
      if n < 10 then (48 + n) :: acc
      else natDigitsGo f (n / 10) ((48 + n % 10) :: acc)

/-- Decimal digit string of a natural number. -/
def natToDigits (n : Nat) : Str := natDigitsGo (n + 1) n []

/-- std::to_string on the long long payload. -/
def intToStr (n : Int) : Str :=
  if n < 0 then 45 :: natToDigits n.natAbs else natToDigits n.toNat

/-- A fraction rendered as exactly six digits, zero padded (the fixed
fractional width of %f, used by std::to_string on double). -/
def pad6 (m : Nat) : Str :=
  let d := natToDigits m
  List.replicate (6 - d.length) 48 ++ d

/-- std::to_string on the double payload: %f fixed notation with six
fractional digits ("inf" / "nan" for the special values).  The rounding of
the magnitude to six places is modelled as round half up on the exact
magnitude (num over den); the half-even ties of the C library are not
observed by any claim. -/
def dblToStr : DVal → Str
  | .nan => [110, 97, 110]
  | .posInf => [105, 110, 102]
  | .negInf => [45, 105, 110, 102]
  | .finite q =>
      let a := q.num.natAbs * 1000000
      let m := (2 * a + q.den) / (2 * q.den)
      let sign : Str := if q.num < 0 then [45] else []
      sign ++ natToDigits (m / 1000000) ++ 46 :: pad6 (m % 1000000)

/-! ## Numeric conversions (the to_integer / to_double helpers) -/

/-- Smallest long long value. -/
def int64Min : Int := -(2 ^ 63)

/-- Largest long long value. -/
def int64Max : Int := 2 ^ 63 - 1

/-- The to_integer helper: std::stoll (skip isspace, optional sign, base-10
digits; no digit at all raises invalid_argument, a value outside the
64-bit signed range raises out_of_range), followed by the check that the
conversion consumed the whole string, which otherwise throws
"Unexpected number(integer) format.". -/
def to_integer (str : Str) : Except Err Int :=
  let s1 := str.dropWhile isspaceCp
  let signSplit : Int × Str :=
    match s1 with
    | c :: r => if c = 43 then ((1 : Int), r) else if c = 45 then (-1, r) else (1, c :: r)
    | [] => (1, [])
  let ds := signSplit.2.takeWhile isDigitCp
  let rest := signSplit.2.dropWhile isDigitCp
  if ds = [] then .error (.invalidArgument "stoll")
  else
    let v : Int := signSplit.1 * digitsVal ds
    if v < int64Min || int64Max < v then .error (.outOfRange "stoll")
    else if rest = [] then .ok v
    else .error (.format "Unexpected number(integer) format.")

/-- Case-insensitive prefix test (ASCII folding), for the inf / nan forms
accepted by strtod. -/
def startsWithCI (pat : Str) (s : Str) : Bool :=
  (s.take pat.length).map tolowerCp = pat

/-- Value of a hex digit string, most significant first. -/
def hexDigitsVal (ds : Str) : Nat := ds.foldl (fun a d => 16 * a + hexVal d) 0

/-- The rational m times base to the power e (e an integer), kept in the
divInt form so that concrete values reduce inside the kernel. -/
def qScale (base : Nat) (m : Int) (e : Int) : ℚ :=
  if 0 ≤ e then Rat.divInt (m * ((base ^ e.toNat : ℕ) : ℤ)) 1
  else Rat.divInt m ((base ^ (-e).toNat : ℕ) : ℤ)

/-- An optional exponent part: a marker from the given set, an optional
sign and at least one decimal digit; with no digit the marker is not part
of the subject sequence (strtod backtracks). -/
def scanExp (marks : List Nat) (r : Str) : Int × Str :=
  match r with
  | e :: rest =>
      if e ∈ marks then
        let signSplit : Int × Str :=
          match rest with
          | 43 :: rr => (1, rr)
          | 45 :: rr => (-1, rr)
          | _ => (1, rest)
        let eds := signSplit.2.takeWhile isDigitCp
        if eds = [] then (0, e :: rest)
        else (signSplit.1 * digitsVal eds, signSplit.2.dropWhile isDigitCp)
      else (0, e :: rest)
  | [] => (0, [])

/-- The scanned magnitude of a strtod subject sequence. -/
inductive StodVal where
  | finite (q : ℚ)
  | inf
  | nan
deriving DecidableEq

/-- The longest strtod subject sequence after the optional sign, with the
unconsumed suffix: the inf / infinity / nan forms (the parenthesised
nan(sequence) variant is not modelled), the 0x hexadecimal forms with
binary exponent, or a decimal significand with optional fraction and
decimal exponent.  Returns none when no conversion is possible. -/
def stodScan (s : Str) : Option (StodVal × Str) :=
  if startsWithCI [105, 110, 102, 105, 110, 105, 116, 121] s then
    some (.inf, s.drop 8)
  else if startsWithCI [105, 110, 102] s then
    some (.inf, s.drop 3)
  else if startsWithCI [110, 97, 110] s then
    some (.nan, s.drop 3)
  else
    match s with
    | 48 :: x :: r =>
        if x = 120 || x = 88 then
          -- hexadecimal: 0x, hex digits with optional point, optional p-exponent
          let hd := r.takeWhile isxdigitCp
          let r1 := r.dropWhile isxdigitCp
          let fracSplit : Str × Str :=
            match r1 with
            | 46 :: rr =>
                if hd = [] && rr.takeWhile isxdigitCp = [] then ([], r1)
                else (rr.takeWhile isxdigitCp, rr.dropWhile isxdigitCp)
            | _ => ([], r1)
          if hd = [] && fracSplit.1 = [] then
            -- no hex digit: the subject is just the initial 0
            some (.finite 0, x :: r)
          else
            let hf := fracSplit.1
            let expSplit := scanExp [112, 80] fracSplit.2
            some (.finite (qScale 2 (hexDigitsVal (hd ++ hf) : ℤ)
              (expSplit.1 - 4 * hf.length)), expSplit.2)
        else decimalScan s
    | _ => decimalScan s
where
  /-- The decimal branch: digits, an optional point with digits, an
  optional e-exponent; at least one significand digit is required. -/
  decimalScan (s : Str) : Option (StodVal × Str) :=
    let ip := s.takeWhile isDigitCp
    let r1 := s.dropWhile isDigitCp
    let fracSplit : Option (Str × Str) :=
      match r1 with
      | 46 :: rr =>
          if ip = [] && rr.takeWhile isDigitCp = [] then none
          else some (rr.takeWhile isDigitCp, rr.dropWhile isDigitCp)
      | _ => if ip = [] then none else some ([], r1)
    match fracSplit with
    | none => none
    | some (fp, r2) =>
        let expSplit := scanExp [101, 69] r2
        some (.finite (qScale 10 (digitsVal (ip ++ fp) : ℤ)
          (expSplit.1 - fp.length)), expSplit.2)

/-- The overflow threshold of binary64: magnitudes at or above the
midpoint between the largest finite double and 2^1024 round to infinity
and strtod reports ERANGE. -/
def dblOverflowB (q : ℚ) : Bool := (2 ^ 1024 - 2 ^ 970 : ℕ) * q.den ≤ q.num.natAbs

/-- The underflow condition under which glibc strtod reports ERANGE (and
libstdc++ std::stod therefore throws out_of_range): a nonzero result below
the smallest normal magnitude that is not exactly representable as a
multiple of 2^-1074. -/
def dblUnderflowB (q : ℚ) : Bool :=
  q.num ≠ 0 && q.num.natAbs * 2 ^ 1022 < q.den &&
    (q.num.natAbs * 2 ^ 1074) % q.den ≠ 0

/-- The to_double helper: std::stod (skip isspace, optional sign, longest
subject sequence per stodScan; no conversion raises invalid_argument, a
value outside the double range raises out_of_range), then the check that
the conversion consumed the whole string, which otherwise throws
"Unexpected number(double) format.". -/
def to_double (str : Str) : Except Err DVal :=
  let s1 := str.dropWhile isspaceCp
  let signSplit : Bool × Str :=
    match s1 with
    | 43 :: r => (false, r)
    | 45 :: r => (true, r)
    | _ => (false, s1)
  match stodScan signSplit.2 with
  | none => .error (.invalidArgument "stod")
  | some (val, rest) =>
      match val with
      | .finite q0 =>
          let q := if signSplit.1 then -q0 else q0
          if dblOverflowB q then .error (.outOfRange "stod")
          else if dblUnderflowB q then .error (.outOfRange "stod")
          else if rest = [] then .ok (.finite q)
          else .error (.format "Unexpected number(double) format.")
      | .inf =>
          if rest = [] then .ok (if signSplit.1 then .negInf else .posInf)
          else .error (.format "Unexpected number(double) format.")
      | .nan =>
          if rest = [] then .ok .nan
          else .error (.format "Unexpected number(double) format.")

/-! ## Serialization (json::to_string)

The source streams through std::stringstream; nested serializations and
member keys pass through c_str(), so they are cut off at an embedded NUL;
the string payload of a top-level string value is concatenated as a
std::string and keeps embedded NULs. -/

/-- The c_str() view of a string: everything before the first NUL. -/
def cstr (s : Str) : Str := s.takeWhile (· ≠ 0)

mutual
/-- json::to_string: object and array delegate to the member and element
walks; a string payload is wrapped in quotes; numbers render through
std::to_string; booleans and null render as literals; the invalid kind
throws runtime_error "invalid json type". -/
def json.to_string : json → Except Err Str
  | .object ms => (members_to_string ms).map (fun inner => 123 :: inner ++ [125])
  | .array es => (elems_to_string es).map (fun inner => 91 :: inner ++ [93])
  | .string s => .ok (34 :: s ++ [34])
  | .number_integer n => .ok (intToStr n)
  | .number_double d => .ok (dblToStr d)
  | .boolean b => .ok (if b then [116, 114, 117, 101] else [102, 97, 108, 115, 101])
  | .null => .ok [110, 117, 108, 108]
  | .invalid => .error (.format "invalid json type")
/-- The member walk of json::object_to_string: quoted key (via c_str),
a space-colon-space separator, the serialized value (via c_str), and a
comma after every member but the last. -/
def members_to_string : List (Str × json) → Except Err Str
  | [] => .ok []
  | (k, v) :: rest => do
      let vs ← v.to_string
      let tl ← members_to_string rest
      .ok (34 :: cstr k ++ [34, 32, 58, 32] ++ cstr vs ++
        (if rest.isEmpty then [] else [44]) ++ tl)
/-- The element walk of json::array_to_string: serialized elements (via
c_str) with a comma after every element but the last. -/
def elems_to_string : List json → Except Err Str
  | [] => .ok []
  | v :: rest => do
      let vs ← v.to_string
      let tl ← elems_to_string rest
      .ok (cstr vs ++ (if rest.isEmpty then [] else [44]) ++ tl)
end

/-! ## The recursive-descent routines of class parser

The mutually recursive knot (parse_value with the loops of parse_object
and parse_array) is tied through an explicit recursion budget: each loop
takes the value routine it calls as a function argument, and parse_value
passes itself at the budget's predecessor.  The entry point parse supplies
a budget larger than the input length; since every budget step consumes at
least one code point of input, the Err.fuel branches are unreachable from
parse and exist only to make the recursion structural. -/

/-- The token accumulation shared by parse_number, parse_bool and
parse_null: code points up to (excluding) the next comma, closing bracket,
closing brace, or end of input. -/
def read_token : Str → Str × Str
  | [] => ([], [])
  | c :: rest =>
      if c = 44 || c = 93 || c = 125 then ([], c :: rest)
      else
        let (t, r) := read_token rest
        (c :: t, r)

/-- The to_bool helper: lower-case the whole string and require exactly
true or false; anything else throws "invalid boolean string". -/
def to_bool (str : Str) : Except Err Bool :=
  let l := str.map tolowerCp
  if l = [116, 114, 117, 101] then .ok true
  else if l = [102, 97, 108, 115, 101] then .ok false
  else .error (.format "invalid boolean string")

/-- parser::parse_bool: accumulate a token (lower-casing each code point
as read), trim it, and convert through to_bool. -/
def parse_bool (s : Str) : Except Err (json × Str) :=
  let (tok, rest) := read_token s
  (to_bool (trim (tok.map tolowerCp))).map (fun b => (.boolean b, rest))

/-- parser::parse_null: accumulate a token (lower-casing each code point
as read), trim it, and require exactly null; anything else throws
"unexpected null string". -/
def parse_null (s : Str) : Except Err (json × Str) :=
  let (tok, rest) := read_token s
  if trim (tok.map tolowerCp) = [110, 117, 108, 108] then .ok (.null, rest)
  else .error (.format "unexpected null string")

/-- parser::parse_number: accumulate a token, trim it, and classify: a
token of digits and minus signs only (find_first_not_of "0123456789-")
goes through to_integer, everything else through to_double. -/
def parse_number (s : Str) : Except Err (json × Str) :=
  let (tok, rest) := read_token s
  let nums := trim tok
  if nums.all (fun c => isDigitCp c || c = 45) then
    (to_integer nums).map (fun n => (.number_integer n, rest))
  else
    (to_double nums).map (fun d => (.number_double d, rest))

/-- parser::parse_hex: exactly four code points, each a hex digit (a
non-hex digit or end of input throws "not hex number"), read as a base-16
number. -/
def parse_hex (s : Str) : Except Err (Nat × Str) :=
  match s with
  | a :: b :: c :: d :: rest =>
      if isxdigitCp a && isxdigitCp b && isxdigitCp c && isxdigitCp d then
        .ok (hexDigitsVal [a, b, c, d], rest)
      else .error (.format "not hex number")
  | _ => .error (.format "not hex number")

/-- parser::escape_char: consume the backslash (via skip_char), read one
code point and map it; the u escape reads four hex digits via parse_hex;
any other code point (or end of input, where the switch on the EOF value
reaches the same default) throws "backslash is followed by invalid
character". -/
def escape_char (s : Str) : Except Err (Nat × Str) := do
  let s1 ← skip_char 92 s
  match s1 with
  | [] => .error (.format "backslash is followed by invalid character")
  | c :: rest =>
      if c = 34 then .ok (34, rest)
      else if c = 92 then .ok (92, rest)
      else if c = 47 then .ok (47, rest)
      else if c = 98 then .ok (8, rest)
      else if c = 102 then .ok (12, rest)
      else if c = 110 then .ok (10, rest)
      else if c = 114 then .ok (13, rest)
      else if c = 116 then .ok (9, rest)
      else if c = 117 then parse_hex rest
      else .error (.format "backslash is followed by invalid character")

/-- The quoted-content loop shared (verbatim, in two copies) by
parser::parse_string and parser::parse_member: code points up to the
closing quote or end of input, with backslashes handled by escape_char.
The loop leaves the closing quote unconsumed (the caller skips it); at end
of input it stops and the caller's skip_char fails. -/
def parse_qchars : Nat → Str → Except Err (Str × Str)
  | 0, _ => .error .fuel
  | f + 1, s =>
      match s with
      | [] => .ok ([], [])
      | c :: rest =>
          if c = 34 then .ok ([], c :: rest)
          else if c = 92 then do
            let (ec, r) ← escape_char (c :: rest)
            let (t, r2) ← parse_qchars f r
            .ok (ec :: t, r2)
          else do
            let (t, r2) ← parse_qchars f rest
            .ok (c :: t, r2)

/-- parser::parse_string: opening quote, content, closing quote. -/
def parse_string (f : Nat) (s : Str) : Except Err (json × Str) := do
  let s1 ← skip_char 34 s
  let (content, s2) ← parse_qchars f s1
  let s3 ← skip_char 34 s2
  .ok (.string content, s3)

/-- parser::parse_member: identical to parse_string but returns the raw
key text. -/
def parse_member (f : Nat) (s : Str) : Except Err (Str × Str) := do
  let s1 ← skip_char 34 s
  let (content, s2) ← parse_qchars f s1
  let s3 ← skip_char 34 s2
  .ok (content, s3)

/-- The member loop of parser::parse_object, with the trailing skip_char
of the closing brace folded into the loop exit.  pv is the parse_value
routine the loop calls for member values.  Per iteration: peek the next
non-space code point; at a quote parse a member name, require a colon,
parse the value and insert it (add_member semantics, overwriting a
duplicate key); at a closing brace stop and consume it; at a comma consume
it and continue; at end of input the loop exits and the skip_char of the
closing brace fails; anything else throws "invalid object format". -/
def parse_object_loop (pv : Str → Except Err (json × Str)) :
    Nat → List (Str × json) → Str → Except Err (List (Str × json) × Str)
  | 0, _, _ => .error .fuel
  | f + 1, acc, s =>
      match peek_next_non_space s with
      | (none, _) => .error (.format "expected char not found")
      | (some c, s1) =>
          if c = 34 then do
            let (mem, s2) ← parse_member f s1
            let s3 ← skip_char 58 s2
            let (v, s4) ← pv s3
            parse_object_loop pv f (mapInsert mem v acc) s4
          else if c = 125 then do
            let s2 ← skip_char 125 s1
            .ok (acc, s2)
          else if c = 44 then
            parse_object_loop pv f acc s1.tail
          else .error (.format "invalid object format")

/-- parser::parse_object: consume the opening brace, run the member loop
(which also consumes the closing brace). -/
def parse_object_core (pv : Str → Except Err (json × Str)) (f : Nat) (s : Str) :
    Except Err (json × Str) := do
  let s1 ← skip_char 123 s
  let (ms, s2) ← parse_object_loop pv f [] s1
  .ok (.object ms, s2)

/-- The do-while loop of parser::parse_array, with the trailing skip_char
of the closing bracket folded into the loop exit.  Per iteration: parse
one value and append it; then peek the next non-space code point: a comma
is consumed and the loop continues, a closing bracket stops the loop and
is consumed, end of input exits the loop and the skip_char of the closing
bracket fails, and any other code point just continues the loop (the next
iteration parses another value with no separator in between). -/
def parse_array_loop (pv : Str → Except Err (json × Str)) :
    Nat → List json → Str → Except Err (List json × Str)
  | 0, _, _ => .error .fuel
  | f + 1, acc, s => do
      let (v, s1) ← pv s
      match peek_next_non_space s1 with
      | (none, _) => .error (.format "expected char not found")
      | (some c, s2) =>
          if c = 44 then do
            let s3 ← skip_char 44 s2
            parse_array_loop pv f (acc ++ [v]) s3
          else if c = 93 then do
            let s3 ← skip_char 93 s2
            .ok (acc ++ [v], s3)
          else parse_array_loop pv f (acc ++ [v]) s2

/-- parser::parse_array: consume the opening bracket; an immediate closing
bracket yields the empty array, otherwise the element loop runs (and
consumes the closing bracket). -/
def parse_array_core (pv : Str → Except Err (json × Str)) (f : Nat) (s : Str) :
    Except Err (json × Str) := do
  let s1 ← skip_char 91 s
  let p := peek_next_non_space s1
  if p.1 = some 93 then do
    let s3 ← skip_char 93 p.2
    .ok (.array [], s3)
  else do
    let (es, s3) ← parse_array_loop pv f [] p.2
    .ok (.array es, s3)

/-- parser::parse_value: dispatch on the next non-space code point (which
the peek, faithfully to the source, has already advanced past the
whitespace): quote to string, opening bracket to array, digit, minus or
period to number, opening brace to object, t or f (either case) to
boolean, n (either case) to null; anything else, including end of input,
throws "unexpected character". -/
def parse_value : Nat → Str → Except Err (json × Str)
  | 0, _ => .error .fuel
  | f + 1, s =>
      match peek_next_non_space s with
      | (none, _) => .error (.format "unexpected character")
      | (some c, s1) =>
          if c = 34 then parse_string f s1
          else if c = 91 then parse_array_core (parse_value f) f s1
          else if isDigitCp c || c = 45 || c = 46 then parse_number s1
          else if c = 123 then parse_object_core (parse_value f) f s1
          else if c = 84 || c = 116 || c = 70 || c = 102 then parse_bool s1
          else if c = 110 || c = 78 then parse_null s1
          else .error (.format "unexpected character")

/-- The root dispatch of parser::parse: the first non-space code point
must open an object or an array; anything else (including empty input) is
runtime_error "invalid json format". -/
def parse_root (fuel : Nat) (input : Str) : Except Err (json × Str) :=
  let p := peek_next_non_space input
  match p.1 with
  | some c =>
      if c = 123 then parse_object_core (parse_value fuel) fuel p.2
      else if c = 91 then parse_array_core (parse_value fuel) fuel p.2
      else .error (.format "invalid json format")
  | none => .error (.format "invalid json format")

/-- parser::parse, the entry point: the first non-space code point must
open an object or an array (anything else, including empty input, throws
"invalid json format"); after the root value, any remaining non-space
content throws "invalid json format".  The budget passed down exceeds the
input length, so the artificial fuel bound is never hit. -/
def parse (input : Str) : Except Err json :=
  match parse_root (input.length + 1) input with
  | .error e => .error e
  | .ok (v, s2) =>
      match (peek_next_non_space s2).1 with
      | none => .ok v
      | some _ => .error (.format "invalid json format")

/-- Decode a Lean string literal into the code-point view, for concrete
inputs in the theorems below. -/
def cp (s : String) : Str := s.data.map Char.toNat

/-! ## Tree predicates and the total serializer used in the theorems -/

/-- The member list of a std::map iterates in strictly ascending key
order; this is that invariant on the model's association lists (adjacent
keys strictly ascending). -/
def sortedKeysB : List (Str × json) → Bool
  | [] => true
  | [_] => true
  | (k1, _) :: (k2, v2) :: rest => keyLt k1 k2 && sortedKeysB ((k2, v2) :: rest)

mutual
/-- Every object node of the tree has its member list in ascending key
order (true of every tree the C++ API can build, since json_object is a
std::map). -/
def allSortedB : json → Bool
  | .array es => allSortedElems es
  | .object ms => sortedKeysB ms && allSortedMems ms
  | _ => true
/-- allSortedB over the elements of an array. -/
def allSortedElems : List json → Bool
  | [] => true
  | v :: rest => allSortedB v && allSortedElems rest
/-- allSortedB over the member values of an object. -/
def allSortedMems : List (Str × json) → Bool
  | [] => true
  | (_, v) :: rest => allSortedB v && allSortedMems rest
end

mutual
/-- No node of the tree has the invalid kind. -/
def noInvalidB : json → Bool
  | .invalid => false
  | .array es => noInvalidElems es
  | .object ms => noInvalidMems ms
  | _ => true
/-- noInvalidB over the elements of an array. -/
def noInvalidElems : List json → Bool
  | [] => true
  | v :: rest => noInvalidB v && noInvalidElems rest
/-- noInvalidB over the member values of an object. -/
def noInvalidMems : List (Str × json) → Bool
  | [] => true
  | (_, v) :: rest => noInvalidB v && noInvalidMems rest
end

/-- A string payload or key in the well-behaved subset of the round-trip
claim: no control character (code points up to 31), no quote, no
backslash. -/
def strOkB (s : Str) : Bool := s.all (fun c => 31 < c && c ≠ 34 && c ≠ 92)

mutual
/-- The well-behaved subset of the round-trip claim, together with the
invariants every C++ tree satisfies by construction: string payloads and
object keys avoid quote, backslash and control characters; integer
payloads are in the 64-bit signed range (they are long long values);
object member lists are strictly key-sorted (they are std::map);
no DoubleNumber payload (their fixed six-digit serialization does not
round-trip) and no Invalid node. -/
def wfRT : json → Bool
  | .string s => strOkB s
  | .number_integer n => decide (int64Min ≤ n) && decide (n ≤ int64Max)
  | .number_double _ => false
  | .boolean _ => true
  | .null => true
  | .invalid => false
  | .array es => wfRTElems es
  | .object ms => sortedKeysB ms && wfRTMems ms
/-- wfRT over the elements of an array. -/
def wfRTElems : List json → Bool
  | [] => true
  | v :: rest => wfRT v && wfRTElems rest
/-- wfRT over the members of an object (keys included). -/
def wfRTMems : List (Str × json) → Bool
  | [] => true
  | (k, v) :: rest => strOkB k && wfRT v && wfRTMems rest
end

mutual
/-- The total serializer: the string json::to_string produces whenever it
does not throw (see to_string_eq_serVal). -/
def serVal : json → Str
  | .object ms => 123 :: serMems ms ++ [125]
  | .array es => 91 :: serElems es ++ [93]
  | .string s => 34 :: s ++ [34]
  | .number_integer n => intToStr n
  | .number_double d => dblToStr d
  | .boolean b => if b then [116, 114, 117, 101] else [102, 97, 108, 115, 101]
  | .null => [110, 117, 108, 108]
  | .invalid => []
/-- The total member walk mirroring members_to_string. -/
def serMems : List (Str × json) → Str
  | [] => []
  | (k, v) :: rest =>
      34 :: cstr k ++ [34, 32, 58, 32] ++ cstr (serVal v) ++
        (if rest.isEmpty then [] else [44]) ++ serMems rest
/-- The total element walk mirroring elems_to_string. -/
def serElems : List json → Str
  | [] => []
  | v :: rest =>
      cstr (serVal v) ++ (if rest.isEmpty then [] else [44]) ++ serElems rest
end

/-- A stream suffix at which token accumulation stops immediately: empty,
or starting with a comma, closing bracket or closing brace (the contexts
in which a serialized scalar is re-parsed). -/
def delimOkB : Str → Bool
  | [] => true
  | c :: _ => c = 44 || c = 93 || c = 125

/-- A recursion budget sufficient for the object member loop to walk the
serialization of the given members. -/
def objFuel (ms : List (Str × json)) : Nat :=
  ms.foldr (fun m a => m.1.length + 3 + a) 1

/-! ## Theorems for the claims -/

/-- C10 counterexample: the claim says the comma-free object text
{"a":1"b":2} parses successfully to a two-member object; in fact the
number parser swallows the quote and key of the second member (it only
stops at comma, bracket, brace or end of input), so std::stod leaves a
suffix unconsumed and the parse fails. -/
theorem c10_counterexample :
    parse (cp "\x7b\"a\":1\"b\":2\x7d") =
      .error (.format "Unexpected number(double) format.") := by
  rfl

/-- C4 counterexample: the integer tree 42 is inside the claimed
well-behaved subset (no strings at all), its serialization is the text 42,
and parsing that text fails, because parse only accepts an object or an
array at the root. -/
theorem c4_counterexample :
    json.to_string (.number_integer 42) = .ok (cp "42") ∧
    parse (cp "42") = .error (.format "invalid json format") :=
  ⟨rfl, rfl⟩

/-- C2 counterexample: a token of twenty nines consists only of digits,
yet it does not parse to an IntegerNumber value: std::stoll raises
out_of_range because the value exceeds the 64-bit signed range. -/
theorem c2_counterexample :
    (trim (read_token (cp "99999999999999999999")).1).all
        (fun c => isDigitCp c || c = 45) = true ∧
    parse_number (cp "99999999999999999999") = .error (.outOfRange "stoll") :=
  ⟨rfl, rfl⟩

/-- C1: parse fails with "invalid json format" unless the first non-space
code point is an opening brace or bracket (including at empty or
all-whitespace input); once the root value is parsed, remaining non-space
content fails with "invalid json format" while trailing whitespace (or
nothing) is accepted; concretely, an object followed by garbage fails and
an object followed by spaces succeeds. -/
theorem c1_root_restriction_and_trailing :
    (∀ input : Str,
      ((peek_next_non_space input).1 = none →
        parse input = .error (.format "invalid json format")) ∧
      (∀ c, (peek_next_non_space input).1 = some c → c ≠ 123 → c ≠ 91 →
        parse input = .error (.format "invalid json format")) ∧
      (∀ v s2, parse_root (input.length + 1) input = .ok (v, s2) →
        ((peek_next_non_space s2).1 = none → parse input = .ok v) ∧
        (∀ c, (peek_next_non_space s2).1 = some c →
          parse input = .error (.format "invalid json format")))) ∧
    parse (cp "\x7b\x7d garbage") = .error (.format "invalid json format") ∧
    parse (cp "\x7b\x7d   ") = .ok (.object []) := by
  refine ⟨fun input => ⟨?_, ?_, ?_⟩, rfl, rfl⟩
  · intro h
    simp only [parse, parse_root, h]
  · intro c hc h123 h91
    simp only [parse, parse_root, hc, if_neg h123, if_neg h91]
  · intro v s2 hroot
    constructor
    · intro hnone
      simp only [parse, hroot, hnone]
    · intro c hc
      simp only [parse, hroot, hc]

/-- Witness for C1 at a concrete input: the text true starts with the
code point t, neither a brace nor a bracket, so parse rejects it as an
invalid document. -/
theorem c1_root_restriction_and_trailing_witness :
    parse (cp "true") = .error (.format "invalid json format") :=
  (c1_root_restriction_and_trailing.1 (cp "true")).2.1 116 rfl
    (by decide) (by decide)

/-- C3 counterexample: after the first element of [[][]] the next
non-space token is an opening bracket, neither a comma nor a closing
bracket, yet the parse succeeds (the array loop simply parses another
element), contradicting the claim that any other token is a FormatError. -/
theorem c3_counterexample :
    parse (cp "[[][]]") = .ok (.array [.array [], .array []]) := by
  rfl

/-- C8: every typed getter fails with the CHECK_TYPE_MISMATCH error
(carrying the actual and the expected kind) when the kind does not match,
and returns the payload when it does; in particular get_bool on a string
value fails with the type-mismatch error and returns no default. -/
theorem c8_typed_getters (j : json) :
    (j.type ≠ .string → j.get_string = .error (.typeMismatch j.type .string)) ∧
    (j.type ≠ .number_integer →
      j.get_integer = .error (.typeMismatch j.type .number_integer)) ∧
    (j.type ≠ .number_double →
      j.get_double = .error (.typeMismatch j.type .number_double)) ∧
    (j.type ≠ .boolean → j.get_bool = .error (.typeMismatch j.type .boolean)) ∧
    (j.type ≠ .object → j.get_object = .error (.typeMismatch j.type .object)) ∧
    (j.type ≠ .array → j.get_array = .error (.typeMismatch j.type .array)) ∧
    (j.type ≠ .null → j.get_null = .error (.typeMismatch j.type .null)) ∧
    (∀ s, j = .string s → j.get_string = .ok s) ∧
    (∀ n, j = .number_integer n → j.get_integer = .ok n) ∧
    (∀ d, j = .number_double d → j.get_double = .ok d) ∧
    (∀ b, j = .boolean b → j.get_bool = .ok b) ∧
    (∀ ms, j = .object ms → j.get_object = .ok ms) ∧
    (∀ es, j = .array es → j.get_array = .ok es) ∧
    (j = .null → j.get_null = .ok ()) ∧
    (∀ s, j = .string s → j.get_bool = .error (.typeMismatch .string .boolean)) := by
  cases j <;>
    simp [json.get_string, json.get_integer, json.get_double, json.get_bool,
      json.get_object, json.get_array, json.get_null, json.type]

/-- Witness for C8 at concrete values: get_bool on the string value "a"
fails with the mismatch error naming the string and boolean kinds, and
get_bool on a boolean value returns the payload. -/
theorem c8_typed_getters_witness :
    (json.string [97]).get_bool = .error (.typeMismatch .string .boolean) ∧
    (json.boolean true).get_bool = .ok true := by
  refine ⟨?_, ?_⟩
  · exact (c8_typed_getters (json.string [97])).2.2.2.2.2.2.2.2.2.2.2.2.2.2 [97] rfl
  · exact (c8_typed_getters (json.boolean true)).2.2.2.2.2.2.2.2.2.2.1 true rfl

/-- The key order is irreflexive. -/
theorem keyLt_irrefl (s : Str) : keyLt s s = false := by
  induction s with
  | nil => rfl
  | cons a as ih => simp [keyLt, ih]

/-- Reinserting a key replaces the earlier insertion outright. -/
theorem mapInsert_overwrite (o : List (Str × json)) (k : Str) (v1 v2 : json) :
    mapInsert k v2 (mapInsert k v1 o) = mapInsert k v2 o := by
  induction o with
  | nil => simp [mapInsert, keyLt_irrefl]
  | cons p rest ih =>
      obtain ⟨k', v'⟩ := p
      by_cases hlt : keyLt k k' = true
      · simp [mapInsert, hlt, keyLt_irrefl]
      · by_cases heq : k = k'
        · subst heq
          simp [mapInsert, hlt, keyLt_irrefl]
        · simp [mapInsert, hlt, heq, ih]

/-- Lookup after insertion finds the inserted value. -/
theorem lookupKey_mapInsert (o : List (Str × json)) (k : Str) (v : json) :
    lookupKey k (mapInsert k v o) = some v := by
  induction o with
  | nil => simp [mapInsert, lookupKey]
  | cons p rest ih =>
      obtain ⟨k', v'⟩ := p
      by_cases hlt : keyLt k k' = true
      · simp [mapInsert, hlt, lookupKey]
      · by_cases heq : k = k'
        · subst heq
          simp [mapInsert, hlt, lookupKey]
        · simp [mapInsert, hlt, heq, lookupKey, ih]

/-- C6: inserting under an existing key silently overwrites: a repeated
insertion replaces the first one outright (so the object keeps unique
keys), lookup sees the newest value, and concretely parsing an object
with a duplicated member key keeps the last occurrence. -/
theorem c6_duplicate_keys_last_wins :
    (∀ (o : List (Str × json)) (k : Str) (v1 v2 : json),
      mapInsert k v2 (mapInsert k v1 o) = mapInsert k v2 o) ∧
    (∀ (o : List (Str × json)) (k : Str) (v : json),
      lookupKey k (mapInsert k v o) = some v) ∧
    (parse (cp "\x7b\"a\":1,\"a\":2\x7d")).bind (fun j => j.index_key (cp "a")) =
      .ok (.number_integer 2) :=
  ⟨mapInsert_overwrite, lookupKey_mapInsert, rfl⟩

/-- C7: after a backslash the escapes map exactly as quote to quote,
backslash to backslash, slash to slash, b to backspace, f to form-feed,
n to newline, r to carriage return, t to tab; u followed by four hex
digits yields the code point with that hex value, and a non-hex digit or
fewer than four remaining code points is the error "not hex number"; any
other code point after the backslash is an error; and parsing the quoted
literal with all nine escapes yields the nine expected code points. -/
theorem c7_escape_mapping :
    (∀ rest : Str,
      escape_char (92 :: 34 :: rest) = .ok (34, rest) ∧
      escape_char (92 :: 92 :: rest) = .ok (92, rest) ∧
      escape_char (92 :: 47 :: rest) = .ok (47, rest) ∧
      escape_char (92 :: 98 :: rest) = .ok (8, rest) ∧
      escape_char (92 :: 102 :: rest) = .ok (12, rest) ∧
      escape_char (92 :: 110 :: rest) = .ok (10, rest) ∧
      escape_char (92 :: 114 :: rest) = .ok (13, rest) ∧
      escape_char (92 :: 116 :: rest) = .ok (9, rest)) ∧
    (∀ (h1 h2 h3 h4 : Nat) (rest : Str),
      isxdigitCp h1 = true → isxdigitCp h2 = true →
      isxdigitCp h3 = true → isxdigitCp h4 = true →
      escape_char (92 :: 117 :: h1 :: h2 :: h3 :: h4 :: rest) =
        .ok (hexDigitsVal [h1, h2, h3, h4], rest)) ∧
    (∀ (h1 h2 h3 h4 : Nat) (rest : Str),
      (isxdigitCp h1 && isxdigitCp h2 && isxdigitCp h3 && isxdigitCp h4) = false →
      escape_char (92 :: 117 :: h1 :: h2 :: h3 :: h4 :: rest) =
        .error (.format "not hex number")) ∧
    (∀ pre : Str, pre.length < 4 →
      escape_char (92 :: 117 :: pre) = .error (.format "not hex number")) ∧
    (∀ (c : Nat) (rest : Str),
      c ∉ ([34, 92, 47, 98, 102, 110, 114, 116, 117] : List Nat) →
      escape_char (92 :: c :: rest) =
        .error (.format "backslash is followed by invalid character")) ∧
    parse_string 30
        [34, 92, 116, 92, 34, 92, 92, 92, 47, 92, 98, 92, 102, 92, 110,
         92, 114, 92, 117, 48, 48, 52, 49, 34] =
      .ok (.string [9, 34, 92, 47, 8, 12, 10, 13, 65], []) := by
  refine ⟨fun rest => ⟨rfl, rfl, rfl, rfl, rfl, rfl, rfl, rfl⟩, ?_, ?_, ?_, ?_, rfl⟩
  · intro h1 h2 h3 h4 rest hh1 hh2 hh3 hh4
    simp [escape_char, skip_char, skip_space, parse_hex, hh1, hh2, hh3, hh4,
      isspaceCp, bind, Except.bind]
  · intro h1 h2 h3 h4 rest hbad
    simp only [Bool.and_eq_false_iff] at hbad
    simp [escape_char, skip_char, skip_space, parse_hex, isspaceCp, bind,
      Except.bind]
    intro hh1 hh2 hh3
    simp_all
  · intro pre hlen
    match pre with
    | [] => rfl
    | [a] => rfl
    | [a, b] => rfl
    | [a, b, c] => rfl
    | a :: b :: c :: d :: r => simp [List.length_cons] at hlen; omega
  · intro c rest hc
    simp only [List.mem_cons, List.mem_singleton] at hc
    push_neg at hc
    obtain ⟨n34, n92, n47, n98, n102, n110, n114, n116, n117⟩ := hc
    simp [escape_char, skip_char, skip_space, isspaceCp, n34, n92, n47, n98,
      n102, n110, n114, n116, n117, bind, Except.bind]

/-- Witness for C7 at concrete inputs: the u-escape of 0041 yields the
code point 65, and a backslash followed by a q is the invalid-character
error. -/
theorem c7_escape_mapping_witness :
    escape_char [92, 117, 48, 48, 52, 49] = .ok (65, []) ∧
    escape_char [92, 113] =
      .error (.format "backslash is followed by invalid character") := by
  refine ⟨?_, ?_⟩
  · exact c7_escape_mapping.2.1 48 48 52 49 [] (by decide) (by decide)
      (by decide) (by decide)
  · exact c7_escape_mapping.2.2.2.2.1 113 [] (by decide)

/-- C2 (amended): a trimmed token of digits and minus signs only goes
through the 64-bit integer conversion, yielding an IntegerNumber exactly
when std::stoll succeeds on the whole token (in particular an in-range
value error for out-of-range digit strings); any other token goes through
the double conversion, yielding a DoubleNumber exactly when std::stod
succeeds on the whole token; so a successful parse of a digits-and-minus
token is always an IntegerNumber and of any other token always a
DoubleNumber; a bare minus has no conversion at all, and a token with
internal whitespace leaves a suffix unconsumed, an error. -/
theorem c2_number_classification :
    (∀ (s tok rest : Str), read_token s = (tok, rest) →
      (trim tok).all (fun c => isDigitCp c || c = 45) = true →
      parse_number s =
        (to_integer (trim tok)).map (fun n => (json.number_integer n, rest))) ∧
    (∀ (s tok rest : Str), read_token s = (tok, rest) →
      (trim tok).all (fun c => isDigitCp c || c = 45) = false →
      parse_number s =
        (to_double (trim tok)).map (fun d => (json.number_double d, rest))) ∧
    (∀ (s tok rest r : Str) (j : json), read_token s = (tok, rest) →
      parse_number s = .ok (j, r) →
      ((trim tok).all (fun c => isDigitCp c || c = 45) = true →
        ∃ n, j = .number_integer n) ∧
      ((trim tok).all (fun c => isDigitCp c || c = 45) = false →
        ∃ d, j = .number_double d)) ∧
    to_integer (cp "-") = .error (.invalidArgument "stoll") ∧
    parse_number (cp "-") = .error (.invalidArgument "stoll") ∧
    parse_number (cp "1 2") =
      .error (.format "Unexpected number(double) format.") ∧
    parse_number (cp "99999999999999999999") = .error (.outOfRange "stoll") ∧
    parse_number (cp "123,5") = .ok (.number_integer 123, cp ",5") ∧
    parse_number (cp "1.5]") =
      .ok (.number_double (.finite (Rat.divInt 3 2)), cp "]") := by
  have hInt : ∀ (s tok rest : Str), read_token s = (tok, rest) →
      (trim tok).all (fun c => isDigitCp c || c = 45) = true →
      parse_number s =
        (to_integer (trim tok)).map (fun n => (json.number_integer n, rest)) := by
    intro s tok rest hread h
    simp [parse_number, hread, h]
  have hDbl : ∀ (s tok rest : Str), read_token s = (tok, rest) →
      (trim tok).all (fun c => isDigitCp c || c = 45) = false →
      parse_number s =
        (to_double (trim tok)).map (fun d => (json.number_double d, rest)) := by
    intro s tok rest hread h
    simp [parse_number, hread, h]
  refine ⟨hInt, hDbl, ?_, rfl, rfl, rfl, rfl, rfl, rfl⟩
  intro s tok rest r j hread hok
  constructor
  · intro hall
    rw [hInt s tok rest hread hall] at hok
    cases hti : to_integer (trim tok) with
    | ok n =>
        rw [hti] at hok
        simp [Except.map] at hok
        exact ⟨n, hok.1.symm⟩
    | error e => rw [hti] at hok; simp [Except.map] at hok
  · intro hall
    rw [hDbl s tok rest hread hall] at hok
    cases htd : to_double (trim tok) with
    | ok d =>
        rw [htd] at hok
        simp [Except.map] at hok
        exact ⟨d, hok.1.symm⟩
    | error e => rw [htd] at hok; simp [Except.map] at hok

/-- Witness for C2 at concrete inputs: the token 12 goes down the integer
path and the token 1.5 down the double path. -/
theorem c2_number_classification_witness :
    parse_number (cp "12\x7d") =
      (to_integer (cp "12")).map (fun n => (json.number_integer n, cp "\x7d")) ∧
    parse_number (cp "1.5") =
      (to_double (cp "1.5")).map (fun d => (json.number_double d, [])) := by
  constructor
  · exact c2_number_classification.1 (cp "12\x7d") (cp "12") (cp "\x7d") rfl (by decide)
  · exact c2_number_classification.2.1 (cp "1.5") (cp "1.5") [] rfl (by decide)

/-- C3 (amended): after each array element the loop proceeds by the next
non-space token: a comma is consumed and the loop continues, a closing
bracket ends the array, end of input fails ("expected char not found"
from the closing-bracket skip), and any other token makes the loop
immediately attempt another element (no separator required) rather than
fail outright; a lookahead of a closing bracket matches no parse_value
production ("unexpected character"), so a comma immediately followed by a
closing bracket still fails: the trailing comma in [1,2,] is rejected
while [1,2] parses with size 2. -/
theorem c3_array_separators :
    (∀ (pv : Str → Except Err (json × Str)) (f : Nat) (acc : List json)
        (s s1 s2 : Str) (v : json),
      pv s = .ok (v, s1) → peek_next_non_space s1 = (some 44, s2) →
      parse_array_loop pv (f + 1) acc s =
        parse_array_loop pv f (acc ++ [v]) s2.tail) ∧
    (∀ (pv : Str → Except Err (json × Str)) (f : Nat) (acc : List json)
        (s s1 s2 : Str) (v : json),
      pv s = .ok (v, s1) → peek_next_non_space s1 = (some 93, s2) →
      parse_array_loop pv (f + 1) acc s = .ok (acc ++ [v], s2.tail)) ∧
    (∀ (pv : Str → Except Err (json × Str)) (f : Nat) (acc : List json)
        (s s1 s2 : Str) (v : json),
      pv s = .ok (v, s1) → peek_next_non_space s1 = (none, s2) →
      parse_array_loop pv (f + 1) acc s =
        .error (.format "expected char not found")) ∧
    (∀ (pv : Str → Except Err (json × Str)) (f : Nat) (acc : List json)
        (s s1 s2 : Str) (v : json) (c : Nat),
      pv s = .ok (v, s1) → peek_next_non_space s1 = (some c, s2) →
      c ≠ 44 → c ≠ 93 →
      parse_array_loop pv (f + 1) acc s =
        parse_array_loop pv f (acc ++ [v]) s2) ∧
    (∀ (g : Nat) (s : Str), (peek_next_non_space s).1 = some 93 →
      parse_value (g + 1) s = .error (.format "unexpected character")) ∧
    parse (cp "[1,2,]") = .error (.format "unexpected character") ∧
    parse (cp "[1,2]") = .ok (.array [.number_integer 1, .number_integer 2]) ∧
    (parse (cp "[1,2]")).bind json.size = .ok 2 := by
  refine ⟨?_, ?_, ?_, ?_, ?_, rfl, rfl, rfl⟩
  · intro pv f acc s s1 s2 v hpv hpeek
    have h2 : s2.head? = some 44 := by
      have h1 : skip_space s1 = s2 := congrArg Prod.snd hpeek
      have := congrArg Prod.fst hpeek
      simpa [peek_next_non_space, h1] using this
    cases s2 with
    | nil => simp at h2
    | cons a t =>
        simp only [List.head?] at h2
        injection h2 with h2
        subst h2
        simp only [parse_array_loop, hpv, bind, Except.bind, hpeek]
        simp [skip_char, skip_space, List.dropWhile_cons, isspaceCp, bind,
          Except.bind]
  · intro pv f acc s s1 s2 v hpv hpeek
    have h2 : s2.head? = some 93 := by
      have h1 : skip_space s1 = s2 := congrArg Prod.snd hpeek
      have := congrArg Prod.fst hpeek
      simpa [peek_next_non_space, h1] using this
    cases s2 with
    | nil => simp at h2
    | cons a t =>
        simp only [List.head?] at h2
        injection h2 with h2
        subst h2
        simp only [parse_array_loop, hpv, bind, Except.bind, hpeek]
        simp [skip_char, skip_space, List.dropWhile_cons, isspaceCp, bind,
          Except.bind]
  · intro pv f acc s s1 s2 v hpv hpeek
    simp only [parse_array_loop, hpv, bind, Except.bind, hpeek]
  · intro pv f acc s s1 s2 v c hpv hpeek hc44 hc93
    simp only [parse_array_loop, hpv, bind, Except.bind, hpeek]
    simp [hc44, hc93]
  · intro g s hpeek
    cases hp : peek_next_non_space s with
    | mk c1 s1 =>
        rw [hp] at hpeek
        simp only at hpeek
        subst hpeek
        simp [parse_value, hp, isDigitCp]

/-- Witness for C3 at a concrete input: after the element 1 of the text
1,2] the loop sees the comma and continues with the element list grown by
that value. -/
theorem c3_array_separators_witness :
    parse_array_loop (parse_value 5) 4 [] (cp "1,2]") =
      parse_array_loop (parse_value 5) 3 [.number_integer 1] (cp "2]") := by
  have h := c3_array_separators.1 (parse_value 5) 3 [] (cp "1,2]") (cp ",2]")
    (cp ",2]") (.number_integer 1) rfl rfl
  simpa using h

/-- C10 (amended): the object loop consumes a comma token whenever it
sees one, so leading and repeated commas are tolerated, and a quote always
starts a new member, so no comma is required after a member whose value
ends at a self-delimiting boundary (a closing quote, bracket or brace);
but after a number value the token accumulation runs to the next comma,
bracket or brace, swallowing a following quote, so the comma-free
two-member text with a number first member fails. -/
theorem c10_object_comma_tolerance :
    (∀ (pv : Str → Except Err (json × Str)) (f : Nat)
        (acc : List (Str × json)) (s s2 : Str),
      peek_next_non_space s = (some 44, s2) →
      parse_object_loop pv (f + 1) acc s = parse_object_loop pv f acc s2.tail) ∧
    parse (cp "\x7b,\x7d") = .ok (.object []) ∧
    parse (cp "\x7b,,\"a\":1\x7d") = .ok (.object [(cp "a", .number_integer 1)]) ∧
    parse (cp "\x7b\"a\":\"x\"\"b\":2\x7d") =
      .ok (.object [(cp "a", .string (cp "x")), (cp "b", .number_integer 2)]) ∧
    parse (cp "\x7b\"a\":1\"b\":2\x7d") =
      .error (.format "Unexpected number(double) format.") := by
  refine ⟨?_, rfl, rfl, rfl, rfl⟩
  intro pv f acc s s2 hpeek
  simp only [parse_object_loop, hpeek]
  simp

/-- Witness for C10 at a concrete input: inside an object body the loop
consumes a leading comma and goes on. -/
theorem c10_object_comma_tolerance_witness :
    parse_object_loop (parse_value 3) 3 [] (cp ",\x7d") =
      parse_object_loop (parse_value 3) 2 [] (cp "\x7d") := by
  have h := c10_object_comma_tolerance.1 (parse_value 3) 2 [] (cp ",\x7d")
    (cp ",\x7d") rfl
  simpa using h

/-! ## Lemmas on the key order and sorted insertion -/

/-- The key order is transitive. -/
theorem keyLt_trans :
    ∀ a b c : Str, keyLt a b = true → keyLt b c = true → keyLt a c = true := by
  intro a
  induction a with
  | nil =>
      intro b c hab hbc
      cases b with
      | nil => simp [keyLt] at hab
      | cons y ys =>
          cases c with
          | nil => simp [keyLt] at hbc
          | cons z zs => simp [keyLt]
  | cons x xs ih =>
      intro b c hab hbc
      cases b with
      | nil => simp [keyLt] at hab
      | cons y ys =>
          cases c with
          | nil => simp [keyLt] at hbc
          | cons z zs =>
              simp only [keyLt, Bool.or_eq_true, Bool.and_eq_true,
                decide_eq_true_eq] at hab hbc ⊢
              rcases hab with h1 | ⟨he1, h1⟩
              · rcases hbc with h2 | ⟨he2, h2⟩
                · exact Or.inl (Nat.lt_trans h1 h2)
                · exact Or.inl (he2 ▸ h1)
              · rcases hbc with h2 | ⟨he2, h2⟩
                · exact Or.inl (he1 ▸ h2)
                · exact Or.inr ⟨he1.trans he2, ih ys zs h1 h2⟩

/-- The key order is total: two distinct keys compare one way or the
other. -/
theorem keyLt_total :
    ∀ a b : Str, keyLt a b = false → a ≠ b → keyLt b a = true := by
  intro a
  induction a with
  | nil =>
      intro b hab hne
      cases b with
      | nil => exact absurd rfl hne
      | cons y ys => simp [keyLt] at hab
  | cons x xs ih =>
      intro b hab hne
      cases b with
      | nil => simp [keyLt]
      | cons y ys =>
          simp only [keyLt, Bool.or_eq_false_iff, Bool.and_eq_false_iff,
            decide_eq_false_iff_not, Bool.or_eq_true, Bool.and_eq_true,
            decide_eq_true_eq] at hab ⊢
          obtain ⟨hxy, hrest⟩ := hab
          by_cases hxe : x = y
          · subst hxe
            rcases hrest with h | h
            · exact absurd rfl h
            · refine Or.inr ⟨rfl, ih ys h ?_⟩
              intro hee
              exact hne (by rw [hee])
          · exact Or.inl (Nat.lt_of_le_of_ne (Nat.le_of_not_lt hxy)
              (fun h => hxe h.symm))

/-- The ordering relation on members used for the sortedness invariant. -/
def keyR (a b : Str × json) : Prop := keyLt a.1 b.1 = true

/-- The adjacency form of sortedness coincides with the pairwise form
(keyLt is transitive). -/
theorem sortedKeysB_iff_pairwise :
    ∀ ms : List (Str × json), sortedKeysB ms = true ↔ List.Pairwise keyR ms := by
  intro ms
  induction ms with
  | nil => simp [sortedKeysB]
  | cons a rest ih =>
      cases rest with
      | nil => simp [sortedKeysB, keyR]
      | cons b rest2 =>
          obtain ⟨k1, v1⟩ := a
          obtain ⟨k2, v2⟩ := b
          constructor
          · intro h
            simp only [sortedKeysB, Bool.and_eq_true] at h
            obtain ⟨hlt, hs⟩ := h
            have hpw := ih.mp hs
            rw [List.pairwise_cons]
            refine ⟨?_, hpw⟩
            intro p hp
            rcases List.mem_cons.mp hp with he | hm
            · subst he; exact hlt
            · rw [List.pairwise_cons] at hpw
              exact keyLt_trans _ _ _ hlt (hpw.1 p hm)
          · intro hpw
            rw [List.pairwise_cons] at hpw
            simp only [sortedKeysB, Bool.and_eq_true]
            exact ⟨hpw.1 (k2, v2) (List.mem_cons_self _ _), ih.mpr hpw.2⟩

/-- Every entry of an insertion result is the inserted pair or an entry
of the original list. -/
theorem mapInsert_mem :
    ∀ (ms : List (Str × json)) (k : Str) (v : json) (p : Str × json),
      p ∈ mapInsert k v ms → p = (k, v) ∨ p ∈ ms := by
  intro ms k v p
  induction ms with
  | nil => simp [mapInsert]
  | cons q rest ih =>
      obtain ⟨k', v'⟩ := q
      by_cases hlt : keyLt k k' = true
      · rw [show mapInsert k v ((k', v') :: rest) = (k, v) :: (k', v') :: rest
          from by simp [mapInsert, hlt]]
        intro hp
        rcases List.mem_cons.mp hp with h | h
        · exact Or.inl h
        · exact Or.inr h
      · by_cases heq : k = k'
        · rw [show mapInsert k v ((k', v') :: rest) = (k, v) :: rest
            from by simp [mapInsert, hlt, heq, keyLt_irrefl]]
          intro hp
          rcases List.mem_cons.mp hp with h | h
          · exact Or.inl h
          · exact Or.inr (List.mem_cons.mpr (Or.inr h))
        · rw [show mapInsert k v ((k', v') :: rest) =
              (k', v') :: mapInsert k v rest
            from by simp [mapInsert, hlt, heq]]
          intro hp
          rcases List.mem_cons.mp hp with h | h
          · exact Or.inr (List.mem_cons.mpr (Or.inl h))
          · rcases ih h with h2 | h2
            · exact Or.inl h2
            · exact Or.inr (List.mem_cons.mpr (Or.inr h2))

/-- Insertion preserves the pairwise sortedness of the member list. -/
theorem mapInsert_pairwise :
    ∀ (ms : List (Str × json)) (k : Str) (v : json),
      List.Pairwise keyR ms → List.Pairwise keyR (mapInsert k v ms) := by
  intro ms k v
  induction ms with
  | nil => simp [mapInsert, List.pairwise_cons]
  | cons q rest ih =>
      obtain ⟨k', v'⟩ := q
      intro hpw
      rw [List.pairwise_cons] at hpw
      obtain ⟨hall, hrest⟩ := hpw
      simp only [mapInsert]
      by_cases hlt : keyLt k k' = true
      · simp only [if_pos hlt]
        rw [List.pairwise_cons]
        refine ⟨?_, List.pairwise_cons.mpr ⟨hall, hrest⟩⟩
        intro p hp
        rcases List.mem_cons.mp hp with h | h
        · subst h; exact hlt
        · exact keyLt_trans _ _ _ hlt (hall p h)
      · simp only [if_neg hlt]
        by_cases heq : k = k'
        · simp only [if_pos heq]
          rw [List.pairwise_cons]
          refine ⟨?_, hrest⟩
          intro p hp
          have := hall p hp
          simpa [keyR, heq] using this
        · simp only [if_neg heq]
          rw [List.pairwise_cons]
          refine ⟨?_, ih hrest⟩
          intro p hp
          rcases mapInsert_mem rest k v p hp with h | h
          · subst h
            exact keyLt_total k k' (Bool.eq_false_iff.mpr hlt) heq
          · exact hall p h

/-- Insertion preserves the member-list sortedness invariant. -/
theorem mapInsert_sorted (ms : List (Str × json)) (k : Str) (v : json)
    (h : sortedKeysB ms = true) : sortedKeysB (mapInsert k v ms) = true :=
  (sortedKeysB_iff_pairwise _).mpr
    (mapInsert_pairwise ms k v ((sortedKeysB_iff_pairwise ms).mp h))

/-! ## Inversion helpers for the Except monad -/

/-- Inversion for a successful bind. -/
theorem bind_ok_iff {α β : Type} {x : Except Err α} {f : α → Except Err β}
    {b : β} : (x >>= f) = .ok b ↔ ∃ a, x = .ok a ∧ f a = .ok b := by
  cases x with
  | error e => simp [Bind.bind, Except.bind]
  | ok a => simp [Bind.bind, Except.bind]

/-- Inversion for a successful map. -/
theorem map_ok_iff {α β : Type} {x : Except Err α} {f : α → β} {b : β} :
    x.map f = .ok b ↔ ∃ a, x = .ok a ∧ f a = b := by
  cases x with
  | error e => simp [Except.map]
  | ok a => simp [Except.map]

/-! ## Shapes of the scalar production results -/

/-- A successful parse_string yields a string value. -/
theorem parse_string_ok_shape (f : Nat) (s : Str) (v : json) (r : Str)
    (h : parse_string f s = .ok (v, r)) : ∃ c, v = .string c := by
  unfold parse_string at h
  rw [bind_ok_iff] at h
  obtain ⟨s1, _, h⟩ := h
  rw [bind_ok_iff] at h
  obtain ⟨⟨content, s2⟩, _, h⟩ := h
  rw [bind_ok_iff] at h
  obtain ⟨s3, _, h⟩ := h
  simp only [Except.ok.injEq, Prod.mk.injEq] at h
  exact ⟨content, h.1.symm⟩

/-- A successful parse_number yields an integer or double value. -/
theorem parse_number_ok_shape (s : Str) (v : json) (r : Str)
    (h : parse_number s = .ok (v, r)) :
    (∃ n, v = .number_integer n) ∨ (∃ d, v = .number_double d) := by
  unfold parse_number at h
  cases hrt : read_token s with
  | mk tok rest =>
    rw [hrt] at h
    simp only at h
    by_cases hall : (trim tok).all (fun c => isDigitCp c || c = 45) = true
    · rw [if_pos hall, map_ok_iff] at h
      obtain ⟨n, _, h⟩ := h
      simp only [Prod.mk.injEq] at h
      exact Or.inl ⟨n, h.1.symm⟩
    · rw [if_neg hall, map_ok_iff] at h
      obtain ⟨d, _, h⟩ := h
      simp only [Prod.mk.injEq] at h
      exact Or.inr ⟨d, h.1.symm⟩

/-- A successful parse_bool yields a boolean value. -/
theorem parse_bool_ok_shape (s : Str) (v : json) (r : Str)
    (h : parse_bool s = .ok (v, r)) : ∃ b, v = .boolean b := by
  unfold parse_bool at h
  cases hrt : read_token s with
  | mk tok rest =>
    rw [hrt] at h
    simp only at h
    rw [map_ok_iff] at h
    obtain ⟨b, _, h⟩ := h
    simp only [Prod.mk.injEq] at h
    exact ⟨b, h.1.symm⟩

/-- A successful parse_null yields the null value. -/
theorem parse_null_ok_shape (s : Str) (v : json) (r : Str)
    (h : parse_null s = .ok (v, r)) : v = .null := by
  unfold parse_null at h
  cases hrt : read_token s with
  | mk tok rest =>
    rw [hrt] at h
    simp only at h
    by_cases hc : trim (tok.map tolowerCp) = [110, 117, 108, 108]
    · rw [if_pos hc] at h
      simp only [Except.ok.injEq, Prod.mk.injEq] at h
      exact h.1.symm
    · rw [if_neg hc] at h
      simp at h

/-! ## The parser only builds key-sorted objects -/

/-- allSortedElems distributes over append. -/
theorem allSortedElems_append (a b : List json) :
    allSortedElems (a ++ b) = (allSortedElems a && allSortedElems b) := by
  induction a with
  | nil => simp [allSortedElems]
  | cons v rest ih => simp [allSortedElems, ih, Bool.and_assoc]

/-- allSortedMems is membership of sorted values. -/
theorem allSortedMems_iff (ms : List (Str × json)) :
    allSortedMems ms = true ↔ ∀ p ∈ ms, allSortedB p.2 = true := by
  induction ms with
  | nil => simp [allSortedMems]
  | cons p rest ih =>
      obtain ⟨k, v⟩ := p
      simp only [allSortedMems, Bool.and_eq_true, ih, List.mem_cons]
      constructor
      · rintro ⟨hv, hr⟩ q hq
        rcases hq with he | hm
        · rw [he]; exact hv
        · exact hr q hm
      · intro h
        exact ⟨h (k, v) (Or.inl rfl), fun q hq => h q (Or.inr hq)⟩

/-- The element loop of parse_array keeps every produced element sorted,
provided the value routine it calls does. -/
theorem parse_array_loop_sorted (pv : Str → Except Err (json × Str))
    (hpv : ∀ s v r, pv s = .ok (v, r) → allSortedB v = true) :
    ∀ (f : Nat) (acc : List json) (s : Str) (es : List json) (r : Str),
      allSortedElems acc = true →
      parse_array_loop pv f acc s = .ok (es, r) →
      allSortedElems es = true := by
  intro f
  induction f with
  | zero =>
      intro acc s es r hacc h
      simp [parse_array_loop] at h
  | succ f ih =>
      intro acc s es r hacc h
      rw [parse_array_loop] at h
      rw [bind_ok_iff] at h
      obtain ⟨⟨v, s1⟩, hpvs, h⟩ := h
      dsimp only at h
      have hv : allSortedB v = true := hpv s v s1 hpvs
      have hconc : allSortedElems (acc ++ [v]) = true := by
        simp [allSortedElems_append, hacc, allSortedElems, hv]
      cases hpk : peek_next_non_space s1 with
      | mk c? s2 =>
        rw [hpk] at h
        match c? with
        | none => simp at h
        | some c =>
          simp only at h
          by_cases hc44 : c = 44
          · rw [if_pos hc44, bind_ok_iff] at h
            obtain ⟨s3, _, h⟩ := h
            exact ih (acc ++ [v]) s3 es r hconc h
          · rw [if_neg hc44] at h
            by_cases hc93 : c = 93
            · rw [if_pos hc93, bind_ok_iff] at h
              obtain ⟨s3, _, h⟩ := h
              simp only [Except.ok.injEq, Prod.mk.injEq] at h
              rw [← h.1]
              exact hconc
            · rw [if_neg hc93] at h
              exact ih (acc ++ [v]) s2 es r hconc h

/-- The member loop of parse_object keeps the accumulated object sorted
and every member value sorted, provided the value routine it calls
produces sorted values. -/
theorem parse_object_loop_sorted (pv : Str → Except Err (json × Str))
    (hpv : ∀ s v r, pv s = .ok (v, r) → allSortedB v = true) :
    ∀ (f : Nat) (acc : List (Str × json)) (s : Str)
      (ms : List (Str × json)) (r : Str),
      sortedKeysB acc = true → allSortedMems acc = true →
      parse_object_loop pv f acc s = .ok (ms, r) →
      sortedKeysB ms = true ∧ allSortedMems ms = true := by
  intro f
  induction f with
  | zero =>
      intro acc s ms r hsort hmem h
      simp [parse_object_loop] at h
  | succ f ih =>
      intro acc s ms r hsort hmem h
      rw [parse_object_loop] at h
      cases hpk : peek_next_non_space s with
      | mk c? s1 =>
        rw [hpk] at h
        match c? with
        | none => simp at h
        | some c =>
          simp only at h
          by_cases hc34 : c = 34
          · rw [if_pos hc34] at h
            rw [bind_ok_iff] at h
            obtain ⟨⟨mem, s2⟩, _, h⟩ := h
            rw [bind_ok_iff] at h
            obtain ⟨s3, _, h⟩ := h
            rw [bind_ok_iff] at h
            obtain ⟨⟨v, s4⟩, hpvs, h⟩ := h
            have hv := hpv s3 v s4 hpvs
            refine ih (mapInsert mem v acc) s4 ms r
              (mapInsert_sorted acc mem v hsort) ?_ h
            rw [allSortedMems_iff]
            intro p hp
            rcases mapInsert_mem acc mem v p hp with he | hin
            · rw [he]; exact hv
            · exact (allSortedMems_iff acc).mp hmem p hin
          · rw [if_neg hc34] at h
            by_cases hc125 : c = 125
            · rw [if_pos hc125, bind_ok_iff] at h
              obtain ⟨s2, _, h⟩ := h
              simp only [Except.ok.injEq, Prod.mk.injEq] at h
              rw [← h.1]
              exact ⟨hsort, hmem⟩
            · rw [if_neg hc125] at h
              by_cases hc44 : c = 44
              · rw [if_pos hc44] at h
                exact ih acc s1.tail ms r hsort hmem h
              · rw [if_neg hc44] at h
                simp at h

/-- Every value parse_value produces has all its object nodes key-sorted
(they are built by add_member insertions starting from the empty map). -/
theorem parse_value_sorted :
    ∀ (f : Nat) (s : Str) (v : json) (r : Str),
      parse_value f s = .ok (v, r) → allSortedB v = true := by
  intro f
  induction f with
  | zero =>
      intro s v r h
      simp [parse_value] at h
  | succ f ih =>
      intro s v r h
      rw [parse_value] at h
      cases hpk : peek_next_non_space s with
      | mk c? s1 =>
        rw [hpk] at h
        match c? with
        | none => simp at h
        | some c =>
          simp only at h
          by_cases hc34 : c = 34
          · rw [if_pos hc34] at h
            obtain ⟨content, he⟩ := parse_string_ok_shape f s1 v r h
            simp [he, allSortedB]
          · rw [if_neg hc34] at h
            by_cases hc91 : c = 91
            · rw [if_pos hc91] at h
              unfold parse_array_core at h
              rw [bind_ok_iff] at h
              obtain ⟨s2, _, h⟩ := h
              by_cases hpk93 : (peek_next_non_space s2).1 = some 93
              · rw [if_pos hpk93, bind_ok_iff] at h
                obtain ⟨s3, _, h⟩ := h
                simp only [Except.ok.injEq, Prod.mk.injEq] at h
                rw [← h.1]
                simp [allSortedB, allSortedElems]
              · rw [if_neg hpk93, bind_ok_iff] at h
                obtain ⟨⟨es, s3⟩, hloop, h⟩ := h
                simp only [Except.ok.injEq, Prod.mk.injEq] at h
                rw [← h.1]
                have := parse_array_loop_sorted (parse_value f) ih f []
                  (peek_next_non_space s2).2 es s3 rfl hloop
                simpa [allSortedB] using this
            · rw [if_neg hc91] at h
              by_cases hnum : (isDigitCp c || c = 45 || c = 46) = true
              · rw [if_pos hnum] at h
                rcases parse_number_ok_shape s1 v r h with ⟨n, he⟩ | ⟨d, he⟩ <;>
                  simp [he, allSortedB]
              · rw [if_neg hnum] at h
                by_cases hc123 : c = 123
                · rw [if_pos hc123] at h
                  unfold parse_object_core at h
                  rw [bind_ok_iff] at h
                  obtain ⟨s2, _, h⟩ := h
                  rw [bind_ok_iff] at h
                  obtain ⟨⟨ms, s3⟩, hloop, h⟩ := h
                  simp only [Except.ok.injEq, Prod.mk.injEq] at h
                  rw [← h.1]
                  have := parse_object_loop_sorted (parse_value f) ih f [] s2
                    ms s3 rfl rfl hloop
                  simp [allSortedB, this.1, this.2]
                · rw [if_neg hc123] at h
                  by_cases hb : (c = 84 || c = 116 || c = 70 || c = 102) = true
                  · rw [if_pos hb] at h
                    obtain ⟨b, he⟩ := parse_bool_ok_shape s1 v r h
                    simp [he, allSortedB]
                  · rw [if_neg hb] at h
                    by_cases hn : (c = 110 || c = 78) = true
                    · rw [if_pos hn] at h
                      have := parse_null_ok_shape s1 v r h
                      simp [this, allSortedB]
                    · rw [if_neg hn] at h
                      simp at h

/-- Folding add_member over any entry sequence, starting from the empty
object, stays an object and keeps the member list (the order in which
object_to_string walks and emits members) strictly key-sorted. -/
theorem fold_add_member_sorted :
    ∀ (entries : List (Str × json)) (start : List (Str × json)),
      sortedKeysB start = true →
      ∃ ms, entries.foldl
          (fun acc kv => acc.bind (fun j => j.add_member kv.1 kv.2))
          (Except.ok (json.object start)) = .ok (.object ms) ∧
        sortedKeysB ms = true := by
  intro entries
  induction entries with
  | nil => intro start hs; exact ⟨start, rfl, hs⟩
  | cons kv rest ih =>
      intro start hs
      obtain ⟨k, v⟩ := kv
      have step : (Except.ok (json.object start)).bind
          (fun j => j.add_member k v) =
          .ok (.object (mapInsert k v start)) := by
        simp [json.add_member, Bind.bind, Except.bind]
      simpa [step] using ih (mapInsert k v start)
        (mapInsert_sorted start k v hs)

/-- C5: the member sequence of every object the library can build is in
strictly ascending (lexicographic) key order, which is exactly the order
object_to_string walks when serializing: insertion keeps a sorted member
list sorted, any sequence of add_member calls on the empty object leaves
a sorted member list regardless of insertion order, and every value the
parser returns has all its object nodes key-sorted regardless of the
member order in the source text. -/
theorem c5_object_keys_sorted :
    (∀ (ms : List (Str × json)) (k : Str) (v : json),
      sortedKeysB ms = true → sortedKeysB (mapInsert k v ms) = true) ∧
    (∀ entries : List (Str × json), ∃ ms,
      entries.foldl (fun acc kv => acc.bind (fun j => j.add_member kv.1 kv.2))
          (Except.ok (json.object [])) = .ok (.object ms) ∧
        sortedKeysB ms = true) ∧
    (∀ (input : Str) (v : json), parse input = .ok v →
      allSortedB v = true) := by
  refine ⟨mapInsert_sorted, fun entries => fold_add_member_sorted entries [] rfl, ?_⟩
  intro input v h
  unfold parse at h
  cases hroot : parse_root (input.length + 1) input with
  | error e => rw [hroot] at h; simp at h
  | ok p =>
      obtain ⟨v0, s2⟩ := p
      rw [hroot] at h
      simp only at h
      unfold parse_root at hroot
      cases hpq : peek_next_non_space input with
      | mk c? sp =>
        rw [hpq] at hroot
        dsimp only at hroot
        match c? with
        | none => simp at hroot
        | some c =>
        dsimp only at hroot
        by_cases hc123 : c = 123
        · rw [if_pos hc123] at hroot
          unfold parse_object_core at hroot
          rw [bind_ok_iff] at hroot
          obtain ⟨s1, _, hroot⟩ := hroot
          rw [bind_ok_iff] at hroot
          obtain ⟨⟨ms, s3⟩, hloop, hroot⟩ := hroot
          simp only [Except.ok.injEq, Prod.mk.injEq] at hroot
          have hsor := parse_object_loop_sorted
            (parse_value (input.length + 1)) (parse_value_sorted _)
            (input.length + 1) [] s1 ms s3 rfl rfl hloop
          have hv0 : v0 = json.object ms := by rw [← hroot.1]
          cases hk : (peek_next_non_space s2).1 with
          | none =>
              rw [hk] at h
              simp only [Except.ok.injEq] at h
              rw [← h, hv0]
              simp [allSortedB, hsor.1, hsor.2]
          | some d => rw [hk] at h; simp at h
        · rw [if_neg hc123] at hroot
          by_cases hc91 : c = 91
          · rw [if_pos hc91] at hroot
            unfold parse_array_core at hroot
            rw [bind_ok_iff] at hroot
            obtain ⟨s1, _, hroot⟩ := hroot
            by_cases hpk93 : (peek_next_non_space s1).1 = some 93
            · rw [if_pos hpk93, bind_ok_iff] at hroot
              obtain ⟨s3, _, hroot⟩ := hroot
              simp only [Except.ok.injEq, Prod.mk.injEq] at hroot
              have hv0 : v0 = json.array [] := by rw [← hroot.1]
              cases hk : (peek_next_non_space s2).1 with
              | none =>
                  rw [hk] at h
                  simp only [Except.ok.injEq] at h
                  rw [← h, hv0]
                  simp [allSortedB, allSortedElems]
              | some d => rw [hk] at h; simp at h
            · rw [if_neg hpk93, bind_ok_iff] at hroot
              obtain ⟨⟨es, s3⟩, hloop, hroot⟩ := hroot
              simp only [Except.ok.injEq, Prod.mk.injEq] at hroot
              have hes := parse_array_loop_sorted
                (parse_value (input.length + 1)) (parse_value_sorted _)
                (input.length + 1) [] (peek_next_non_space s1).2 es s3 rfl hloop
              have hv0 : v0 = json.array es := by rw [← hroot.1]
              cases hk : (peek_next_non_space s2).1 with
              | none =>
                  rw [hk] at h
                  simp only [Except.ok.injEq] at h
                  rw [← h, hv0]
                  simpa [allSortedB] using hes
              | some d => rw [hk] at h; simp at h
          · rw [if_neg hc91] at hroot
            simp at hroot

/-- Witness for C5 at a concrete input: parsing an object whose source
text lists the key b before the key a yields a tree whose member list is
sorted (a before b). -/
theorem c5_object_keys_sorted_witness :
    allSortedB (json.object
      [(cp "a", .number_integer 1), (cp "b", .number_integer 2)]) = true :=
  c5_object_keys_sorted.2.2 (cp "\x7b\"b\":2,\"a\":1\x7d")
    (.object [(cp "a", .number_integer 1), (cp "b", .number_integer 2)]) rfl

/-! ## Induction over the value tree -/

/-- Structural induction over json trees, with element-wise and
member-wise hypotheses for the nested lists (derived from strong
induction on sizeOf, since the nested recursor is unwieldy here). -/
theorem json.indOn (P : json → Prop)
    (hstr : ∀ s, P (.string s)) (hint : ∀ n, P (.number_integer n))
    (hdbl : ∀ d, P (.number_double d)) (hbool : ∀ b, P (.boolean b))
    (hnull : P .null) (hinv : P .invalid)
    (harr : ∀ es, (∀ e ∈ es, P e) → P (.array es))
    (hobj : ∀ ms, (∀ m ∈ ms, P m.2) → P (.object ms)) : ∀ v, P v := by
  have H : ∀ (n : Nat) (v : json), sizeOf v ≤ n → P v := by
    intro n
    induction n with
    | zero =>
        intro v hv
        exfalso
        cases v <;> simp at hv <;> omega
    | succ n ih =>
        intro v hv
        match v with
        | .string s => exact hstr s
        | .number_integer m => exact hint m
        | .number_double d => exact hdbl d
        | .boolean b => exact hbool b
        | .null => exact hnull
        | .invalid => exact hinv
        | .array es =>
            refine harr es (fun e he => ih e ?_)
            have := List.sizeOf_lt_of_mem he
            simp only [json.array.sizeOf_spec] at hv
            omega
        | .object ms =>
            refine hobj ms (fun m hm => ih m.2 ?_)
            have h1 := List.sizeOf_lt_of_mem hm
            have h2 : sizeOf m.2 < sizeOf m := by
              obtain ⟨k, v2⟩ := m
              simp
            simp only [json.object.sizeOf_spec] at hv
            omega
  exact fun v => H (sizeOf v) v le_rfl

/-! ## Serialization succeeds exactly on invalid-free trees -/

/-- Inversion for a failing map. -/
theorem map_error_iff {α β : Type} {x : Except Err α} {f : α → β} {e : Err} :
    x.map f = .error e ↔ x = .error e := by
  cases x with
  | error e2 => simp [Except.map]
  | ok a => simp [Except.map]

/-- Inversion for a failing bind. -/
theorem bind_error_iff {α β : Type} {x : Except Err α} {f : α → Except Err β}
    {e : Err} :
    (x >>= f) = .error e ↔ x = .error e ∨ ∃ a, x = .ok a ∧ f a = .error e := by
  cases x with
  | error e2 => simp [Bind.bind, Except.bind]
  | ok a => simp [Bind.bind, Except.bind]

/-- The element walk serializes to the total walk when every element
does. -/
theorem elems_to_string_ok (es : List json)
    (h : ∀ e ∈ es, noInvalidB e = true → json.to_string e = .ok (serVal e))
    (hno : noInvalidElems es = true) :
    elems_to_string es = .ok (serElems es) := by
  induction es with
  | nil => rfl
  | cons v rest ih =>
      simp only [noInvalidElems, Bool.and_eq_true] at hno
      have hv := h v (List.mem_cons_self _ _) hno.1
      have hr := ih (fun e he hne => h e (List.mem_cons.mpr (Or.inr he)) hne)
        hno.2
      simp [elems_to_string, hv, hr, serElems, bind, Except.bind]

/-- The member walk serializes to the total walk when every member value
does. -/
theorem members_to_string_ok (ms : List (Str × json))
    (h : ∀ m ∈ ms, noInvalidB m.2 = true → json.to_string m.2 = .ok (serVal m.2))
    (hno : noInvalidMems ms = true) :
    members_to_string ms = .ok (serMems ms) := by
  induction ms with
  | nil => rfl
  | cons m rest ih =>
      obtain ⟨k, v⟩ := m
      simp only [noInvalidMems, Bool.and_eq_true] at hno
      have hv := h (k, v) (List.mem_cons_self _ _) hno.1
      have hr := ih (fun m hm hnm => h m (List.mem_cons.mpr (Or.inr hm)) hnm)
        hno.2
      simp [members_to_string, hv, hr, serMems, bind, Except.bind]

/-- A failing element walk names a failing element. -/
theorem elems_to_string_error (es : List json) (e : Err)
    (h : elems_to_string es = .error e) :
    ∃ v ∈ es, json.to_string v = .error e := by
  induction es with
  | nil => simp [elems_to_string] at h
  | cons v rest ih =>
      rw [elems_to_string] at h
      rw [bind_error_iff] at h
      rcases h with h | ⟨vs, _, h⟩
      · exact ⟨v, List.mem_cons_self _ _, h⟩
      · rw [bind_error_iff] at h
        rcases h with h | ⟨tl, _, h⟩
        · obtain ⟨w, hw, he⟩ := ih h
          exact ⟨w, List.mem_cons.mpr (Or.inr hw), he⟩
        · simp at h

/-- A failing member walk names a failing member value. -/
theorem members_to_string_error (ms : List (Str × json)) (e : Err)
    (h : members_to_string ms = .error e) :
    ∃ m ∈ ms, json.to_string m.2 = .error e := by
  induction ms with
  | nil => simp [members_to_string] at h
  | cons m rest ih =>
      obtain ⟨k, v⟩ := m
      rw [members_to_string] at h
      rw [bind_error_iff] at h
      rcases h with h | ⟨vs, _, h⟩
      · exact ⟨(k, v), List.mem_cons_self _ _, h⟩
      · rw [bind_error_iff] at h
        rcases h with h | ⟨tl, _, h⟩
        · obtain ⟨w, hw, he⟩ := ih h
          exact ⟨w, List.mem_cons.mpr (Or.inr hw), he⟩
        · simp at h

/-- On invalid-free trees the serializer succeeds, with the total
serializer's output. -/
theorem to_string_eq_serVal :
    ∀ v : json, noInvalidB v = true → json.to_string v = .ok (serVal v) := by
  intro v
  induction v using json.indOn with
  | hstr s => intro _; rfl
  | hint n => intro _; rfl
  | hdbl d => intro _; rfl
  | hbool b => intro _; rfl
  | hnull => intro _; rfl
  | hinv => intro h; simp [noInvalidB] at h
  | harr es ih =>
      intro hno
      have : elems_to_string es = .ok (serElems es) :=
        elems_to_string_ok es ih (by simpa [noInvalidB] using hno)
      simp [json.to_string, serVal, this, Except.map]
  | hobj ms ih =>
      intro hno
      have : members_to_string ms = .ok (serMems ms) :=
        members_to_string_ok ms ih (by simpa [noInvalidB] using hno)
      simp [json.to_string, serVal, this, Except.map]

/-- The only error the serializer ever raises is the invalid-kind
error. -/
theorem to_string_error_shape :
    ∀ (v : json) (e : Err), json.to_string v = .error e →
      e = .format "invalid json type" := by
  intro v
  induction v using json.indOn with
  | hstr s => intro e h; simp [json.to_string] at h
  | hint n => intro e h; simp [json.to_string] at h
  | hdbl d => intro e h; simp [json.to_string] at h
  | hbool b => intro e h; simp [json.to_string] at h
  | hnull => intro e h; simp [json.to_string] at h
  | hinv => intro e h; simp [json.to_string] at h; exact h.symm
  | harr es ih =>
      intro e h
      rw [json.to_string, map_error_iff] at h
      obtain ⟨w, hw, he⟩ := elems_to_string_error es e h
      exact ih w hw e he
  | hobj ms ih =>
      intro e h
      rw [json.to_string, map_error_iff] at h
      obtain ⟨m, hm, he⟩ := members_to_string_error ms e h
      exact ih m hm e he

/-- C9: on every tree all of whose nodes have one of the kinds String,
IntegerNumber, DoubleNumber, Array, Boolean, Object or Null (that is, no
Invalid node), to_string succeeds and never throws; conversely, when
to_string fails, the tree has an Invalid node and the error is exactly
the invalid-kind error, so the error branch is reachable only through the
Invalid kind. -/
theorem c9_to_string_total :
    (∀ v : json, noInvalidB v = true → ∃ s, json.to_string v = .ok s) ∧
    (∀ (v : json) (e : Err), json.to_string v = .error e →
      noInvalidB v = false ∧ e = .format "invalid json type") ∧
    json.to_string .invalid = .error (.format "invalid json type") := by
  refine ⟨fun v h => ⟨serVal v, to_string_eq_serVal v h⟩, ?_, rfl⟩
  intro v e h
  refine ⟨?_, to_string_error_shape v e h⟩
  cases hno : noInvalidB v with
  | true => rw [to_string_eq_serVal v hno] at h; cases h
  | false => rfl

/-- Witness for C9 at a concrete tree: a mixed array serializes
successfully, and a tree containing an invalid node fails with the
invalid-kind error. -/
theorem c9_to_string_total_witness :
    (∃ s, json.to_string
      (.array [.number_integer 1, .string (cp "x"), .boolean true, .null]) =
        .ok s) ∧
    json.to_string (.array [json.invalid]) =
      .error (.format "invalid json type") := by
  refine ⟨c9_to_string_total.1 _ (by decide), ?_⟩
  have := c9_to_string_total.2.2
  simp [json.to_string, elems_to_string, this, bind, Except.bind, Except.map]

/-! ## List scanning utilities -/

/-- dropWhile is the identity when no element satisfies the predicate. -/
theorem dropWhile_eq_self_of {p : Nat → Bool} :
    ∀ s : Str, (∀ c ∈ s, p c = false) → s.dropWhile p = s := by
  intro s h
  cases s with
  | nil => rfl
  | cons c t => simp [List.dropWhile_cons, h c (List.mem_cons_self _ _)]

/-- takeWhile keeps everything when every element satisfies the
predicate. -/
theorem takeWhile_eq_self_of {p : Nat → Bool} :
    ∀ s : Str, (∀ c ∈ s, p c = true) → s.takeWhile p = s := by
  intro s
  induction s with
  | nil => intro _; rfl
  | cons c t ih =>
      intro h
      simp [List.takeWhile_cons, h c (List.mem_cons_self _ _),
        ih (fun d hd => h d (List.mem_cons.mpr (Or.inr hd)))]

/-- dropWhile drops nothing further when every element satisfies the
negation. -/
theorem dropWhile_eq_nil_of {p : Nat → Bool} :
    ∀ s : Str, (∀ c ∈ s, p c = true) → s.dropWhile p = [] := by
  intro s
  induction s with
  | nil => intro _; rfl
  | cons c t ih =>
      intro h
      simp [List.dropWhile_cons, h c (List.mem_cons_self _ _),
        ih (fun d hd => h d (List.mem_cons.mpr (Or.inr hd)))]

/-- trim is the identity on strings without trim whitespace. -/
theorem trim_eq_self_of (s : Str) (h : ∀ c ∈ s, isTrimWs c = false) :
    trim s = s := by
  unfold trim
  rw [dropWhile_eq_self_of s h]
  rw [dropWhile_eq_self_of s.reverse (fun c hc => h c (List.mem_reverse.mp hc))]
  exact List.reverse_reverse s

/-- cstr is the identity on NUL-free strings. -/
theorem cstr_eq_self_of (s : Str) (h : ∀ c ∈ s, c ≠ 0) : cstr s = s := by
  unfold cstr
  exact takeWhile_eq_self_of s (fun c hc => by simp [h c hc])

/-- Token accumulation splits a delimiter-free prefix off a stream whose
remainder starts with a delimiter (or is empty). -/
theorem read_token_split :
    ∀ (tok rest : Str),
      (∀ c ∈ tok, (c = 44 || c = 93 || c = 125) = false) →
      delimOkB rest = true →
      read_token (tok ++ rest) = (tok, rest) := by
  intro tok
  induction tok with
  | nil =>
      intro rest _ hd
      cases rest with
      | nil => rfl
      | cons c t =>
          simp only [delimOkB] at hd
          simp [read_token, hd]
  | cons c t ih =>
      intro rest htok hd
      have hc := htok c (List.mem_cons_self _ _)
      have ihr := ih rest (fun d hdm => htok d (List.mem_cons.mpr (Or.inr hdm))) hd
      simp [read_token, hc, ihr]

/-! ## Decimal digits round-trip -/

/-- The worker produces its digits in front of the accumulator. -/
theorem natDigitsGo_append :
    ∀ (f n : Nat) (acc : Str), natDigitsGo f n acc = natDigitsGo f n [] ++ acc := by
  intro f
  induction f with
  | zero => intro n acc; rfl
  | succ f ih =>
      intro n acc
      by_cases h : n < 10
      · simp [natDigitsGo, h]
      · rw [natDigitsGo, if_neg h, natDigitsGo, if_neg h,
          ih (n / 10) ((48 + n % 10) :: acc), ih (n / 10) [48 + n % 10]]
        simp

/-- The worker is independent of the budget, as long as it suffices. -/
theorem natDigitsGo_fuel :
    ∀ (f1 f2 n : Nat), 0 < f1 → 0 < f2 → n < 10 ^ f1 → n < 10 ^ f2 →
      natDigitsGo f1 n [] = natDigitsGo f2 n [] := by
  intro f1
  induction f1 with
  | zero =>
      intro f2 n h0 _ _ _
      omega
  | succ f1 ih =>
      intro f2 n _ h02 h1 h2
      cases f2 with
      | zero => omega
      | succ f2 =>
          by_cases h : n < 10
          · simp [natDigitsGo, h]
          · rw [natDigitsGo, if_neg h, natDigitsGo, if_neg h]
            rw [natDigitsGo_append f1, natDigitsGo_append f2]
            have hdiv1 : n / 10 < 10 ^ f1 := by
              rw [Nat.div_lt_iff_lt_mul (by norm_num)]
              calc n < 10 ^ (f1 + 1) := h1
              _ = 10 ^ f1 * 10 := by ring
            have hdiv2 : n / 10 < 10 ^ f2 := by
              rw [Nat.div_lt_iff_lt_mul (by norm_num)]
              calc n < 10 ^ (f2 + 1) := h2
              _ = 10 ^ f2 * 10 := by ring
            have hf1 : 0 < f1 := by
              by_contra hz
              have : f1 = 0 := by omega
              subst this
              simp at hdiv1
              omega
            have hf2 : 0 < f2 := by
              by_contra hz
              have : f2 = 0 := by omega
              subst this
              simp at hdiv2
              omega
            rw [ih f2 (n / 10) hf1 hf2 hdiv1 hdiv2]

/-- Base case of the digit expansion. -/
theorem natToDigits_small (n : Nat) (h : n < 10) : natToDigits n = [48 + n] := by
  unfold natToDigits
  rw [natDigitsGo, if_pos h]

/-- Step case of the digit expansion. -/
theorem natToDigits_step (n : Nat) (h : 10 ≤ n) :
    natToDigits n = natToDigits (n / 10) ++ [48 + n % 10] := by
  unfold natToDigits
  rw [natDigitsGo, if_neg (by omega)]
  rw [natDigitsGo_append n (n / 10) [48 + n % 10]]
  congr 1
  have hd1 : n / 10 < 10 ^ n := by
    have : n / 10 ≤ n := Nat.div_le_self n 10
    have := Nat.lt_pow_self (by norm_num : 1 < 10) n
    omega
  have hd2 : n / 10 < 10 ^ (n / 10 + 1) :=
    Nat.lt_pow_self (by norm_num : 1 < 10) _ |>.trans_le
      (Nat.pow_le_pow_right (by norm_num) (by omega))
  exact natDigitsGo_fuel n (n / 10 + 1) (n / 10) (by omega) (by omega) hd1 hd2

/-- The digits of a natural number are decimal digit code points. -/
theorem natToDigits_digits (n : Nat) :
    ∀ c ∈ natToDigits n, 48 ≤ c ∧ c ≤ 57 := by
  induction n using Nat.strong_induction_on with
  | _ n ih =>
      by_cases h : n < 10
      · rw [natToDigits_small n h]
        intro c hc
        simp at hc
        omega
      · rw [natToDigits_step n (by omega)]
        intro c hc
        rcases List.mem_append.mp hc with hm | hm
        · exact ih (n / 10) (Nat.div_lt_self (by omega) (by norm_num)) c hm
        · simp at hm
          have := Nat.mod_lt n (show 0 < 10 by norm_num)
          omega

/-- The digit string of a natural number is never empty. -/
theorem natToDigits_ne_nil (n : Nat) : natToDigits n ≠ [] := by
  by_cases h : n < 10
  · rw [natToDigits_small n h]; simp
  · rw [natToDigits_step n (by omega)]; simp

/-- Reading the digit string back yields the number. -/
theorem digitsVal_natToDigits (n : Nat) : digitsVal (natToDigits n) = n := by
  induction n using Nat.strong_induction_on with
  | _ n ih =>
      by_cases h : n < 10
      · rw [natToDigits_small n h]
        simp [digitsVal]
      · rw [natToDigits_step n (by omega)]
        unfold digitsVal
        rw [List.foldl_append]
        have := ih (n / 10) (Nat.div_lt_self (by omega) (by norm_num))
        unfold digitsVal at this
        rw [this]
        simp only [List.foldl_cons, List.foldl_nil]
        omega

/-! ## Re-parsing serialized scalars -/

/-- A decimal digit code point is not whitespace. -/
theorem digit_not_space (c : Nat) (h1 : 48 ≤ c) (h2 : c ≤ 57) :
    isspaceCp c = false := by
  simp [isspaceCp]
  omega

/-- std::stoll reads back exactly what std::to_string printed, for any
long long value. -/
theorem to_integer_intToStr (m : Int) (h1 : int64Min ≤ m) (h2 : m ≤ int64Max) :
    to_integer (intToStr m) = .ok m := by
  have hrange : ∀ v : Int, v = m →
      (decide (v < int64Min) || decide (int64Max < v)) = false := by
    intro v hv
    subst hv
    simp only [Bool.or_eq_false_iff, decide_eq_false_iff_not]
    exact ⟨not_lt.mpr h1, not_lt.mpr h2⟩
  by_cases hm : m < 0
  · rw [intToStr, if_pos hm]
    have hdig := natToDigits_digits m.natAbs
    have hne := natToDigits_ne_nil m.natAbs
    have htw : (natToDigits m.natAbs).takeWhile isDigitCp = natToDigits m.natAbs := by
      apply takeWhile_eq_self_of
      intro c hc
      obtain ⟨a, b⟩ := hdig c hc
      simp [isDigitCp]
      omega
    have hdw : (natToDigits m.natAbs).dropWhile isDigitCp = [] := by
      apply dropWhile_eq_nil_of
      intro c hc
      obtain ⟨a, b⟩ := hdig c hc
      simp [isDigitCp]
      omega
    have key :
        (if (natToDigits m.natAbs).takeWhile isDigitCp = [] then
          (Except.error (Err.invalidArgument "stoll") : Except Err Int)
        else if (decide ((-1 : Int) *
              (digitsVal ((natToDigits m.natAbs).takeWhile isDigitCp) : Int) <
              int64Min) ||
            decide (int64Max < (-1 : Int) *
              (digitsVal ((natToDigits m.natAbs).takeWhile isDigitCp) : Int))) =
            true then
          .error (.outOfRange "stoll")
        else if (natToDigits m.natAbs).dropWhile isDigitCp = [] then
          .ok ((-1 : Int) *
            (digitsVal ((natToDigits m.natAbs).takeWhile isDigitCp) : Int))
        else .error (.format "Unexpected number(integer) format.")) =
          .ok m := by
      rw [htw, hdw]
      rw [if_neg hne]
      have hval : (-1 : Int) * (digitsVal (natToDigits m.natAbs) : Int) = m := by
        rw [digitsVal_natToDigits]
        omega
      rw [hval, hrange m rfl]
      simp
    have hred : to_integer (45 :: natToDigits m.natAbs) = .ok m := by
      rw [show to_integer (45 :: natToDigits m.natAbs) =
        (if (natToDigits m.natAbs).takeWhile isDigitCp = [] then
          (Except.error (Err.invalidArgument "stoll") : Except Err Int)
        else if (decide ((-1 : Int) *
              (digitsVal ((natToDigits m.natAbs).takeWhile isDigitCp) : Int) <
              int64Min) ||
            decide (int64Max < (-1 : Int) *
              (digitsVal ((natToDigits m.natAbs).takeWhile isDigitCp) : Int))) =
            true then
          .error (.outOfRange "stoll")
        else if (natToDigits m.natAbs).dropWhile isDigitCp = [] then
          .ok ((-1 : Int) *
            (digitsVal ((natToDigits m.natAbs).takeWhile isDigitCp) : Int))
        else .error (.format "Unexpected number(integer) format.")) from rfl]
      exact key
    exact hred
  · rw [intToStr, if_neg hm]
    have hdig := natToDigits_digits m.toNat
    have hne := natToDigits_ne_nil m.toNat
    cases hD : natToDigits m.toNat with
    | nil => exact absurd hD hne
    | cons c t =>
        have hdigct : ∀ d ∈ c :: t, 48 ≤ d ∧ d ≤ 57 := by
          rw [← hD]; exact hdig
        have hc : 48 ≤ c ∧ c ≤ 57 := hdigct c (List.mem_cons_self _ _)
        unfold to_integer
        rw [dropWhile_eq_self_of (c :: t) ?hsp2]
        case hsp2 =>
          intro d hd
          have := hdigct d hd
          exact digit_not_space d this.1 this.2
        have hc43 : ¬c = 43 := by omega
        have hc45 : ¬c = 45 := by omega
        simp only [if_neg hc43, if_neg hc45]
        rw [takeWhile_eq_self_of (c :: t) ?htw2]
        case htw2 =>
          intro d hd
          obtain ⟨a, b⟩ := hdigct d hd
          simp [isDigitCp]
          omega
        rw [dropWhile_eq_nil_of (c :: t) ?hdw2]
        case hdw2 =>
          intro d hd
          obtain ⟨a, b⟩ := hdigct d hd
          simp [isDigitCp]
          omega
        rw [if_neg (by simp : ¬(c :: t : Str) = [])]
        have hval : (1 : Int) * (digitsVal (c :: t) : Int) = m := by
          have : digitsVal (c :: t) = m.toNat := by
            rw [← hD]; exact digitsVal_natToDigits _
          rw [this]
          omega
        rw [hval, hrange m rfl]
        simp

/-- Every code point std::to_string emits for a long long is a digit or
the minus sign. -/
theorem intToStr_chars (m : Int) :
    ∀ c ∈ intToStr m, c = 45 ∨ (48 ≤ c ∧ c ≤ 57) := by
  intro c hc
  unfold intToStr at hc
  by_cases hm : m < 0
  · rw [if_pos hm] at hc
    rcases List.mem_cons.mp hc with he | hmem
    · exact Or.inl he
    · exact Or.inr (natToDigits_digits m.natAbs c hmem)
  · rw [if_neg hm] at hc
    exact Or.inr (natToDigits_digits m.toNat c hc)

/-- A serialized integer followed by a delimiter re-parses to the same
integer value. -/
theorem parse_number_intToStr (m : Int) (h1 : int64Min ≤ m) (h2 : m ≤ int64Max)
    (rest : Str) (hrest : delimOkB rest = true) :
    parse_number (intToStr m ++ rest) = .ok (.number_integer m, rest) := by
  have hnd : ∀ c ∈ intToStr m, (c = 44 || c = 93 || c = 125) = false := by
    intro c hc
    rcases intToStr_chars m c hc with he | ⟨a, b⟩ <;> simp <;> omega
  have hsplit := read_token_split (intToStr m) rest hnd hrest
  have htrim : trim (intToStr m) = intToStr m := by
    apply trim_eq_self_of
    intro c hc
    rcases intToStr_chars m c hc with he | ⟨a, b⟩ <;> simp [isTrimWs] <;> omega
  have hall : (trim (intToStr m)).all (fun c => isDigitCp c || c = 45) = true := by
    rw [htrim]
    rw [List.all_eq_true]
    intro c hc
    rcases intToStr_chars m c hc with he | ⟨a, b⟩ <;> simp [isDigitCp] <;> omega
  simp only [parse_number, hsplit, hall, if_pos]
  rw [htrim, to_integer_intToStr m h1 h2]
  rfl

/-- The serialized true literal re-parses. -/
theorem parse_bool_true (rest : Str) (h : delimOkB rest = true) :
    parse_bool ([116, 114, 117, 101] ++ rest) = .ok (.boolean true, rest) := by
  have hsplit := read_token_split [116, 114, 117, 101] rest (by decide) h
  simp only [parse_bool, hsplit]
  rfl

/-- The serialized false literal re-parses. -/
theorem parse_bool_false (rest : Str) (h : delimOkB rest = true) :
    parse_bool ([102, 97, 108, 115, 101] ++ rest) = .ok (.boolean false, rest) := by
  have hsplit := read_token_split [102, 97, 108, 115, 101] rest (by decide) h
  simp only [parse_bool, hsplit]
  rfl

/-- The serialized null literal re-parses. -/
theorem parse_null_ser (rest : Str) (h : delimOkB rest = true) :
    parse_null ([110, 117, 108, 108] ++ rest) = .ok (.null, rest) := by
  have hsplit := read_token_split [110, 117, 108, 108] rest (by decide) h
  simp only [parse_null, hsplit]
  rfl

/-- The quoted-content loop copies a quote-free, backslash-free payload
verbatim up to the closing quote. -/
theorem parse_qchars_plain :
    ∀ (s : Str) (f : Nat) (rest : Str),
      (∀ c ∈ s, c ≠ 34 ∧ c ≠ 92) → s.length < f →
      parse_qchars f (s ++ 34 :: rest) = .ok (s, 34 :: rest) := by
  intro s
  induction s with
  | nil =>
      intro f rest _ hf
      cases f with
      | zero => omega
      | succ f => simp [parse_qchars]
  | cons c t ih =>
      intro f rest h hf
      cases f with
      | zero => simp at hf
      | succ f =>
          have hc := h c (List.mem_cons_self _ _)
          have iht := ih f rest (fun d hd => h d (List.mem_cons.mpr (Or.inr hd)))
            (by simp at hf; omega)
          simp [parse_qchars, hc.1, hc.2, iht, bind, Except.bind]

/-- A serialized string literal re-parses to the same payload. -/
theorem parse_string_ser (s : Str) (f : Nat) (rest : Str)
    (h : ∀ c ∈ s, c ≠ 34 ∧ c ≠ 92) (hf : s.length < f) :
    parse_string f (34 :: s ++ 34 :: rest) = .ok (.string s, rest) := by
  unfold parse_string
  simp only [List.cons_append]
  rw [show skip_char 34 (34 :: (s ++ 34 :: rest)) = .ok (s ++ 34 :: rest) from by
    simp [skip_char, skip_space, List.dropWhile_cons, isspaceCp]]
  simp only [bind, Except.bind]
  rw [parse_qchars_plain s f rest h hf]
  dsimp only
  simp [skip_char, skip_space, List.dropWhile_cons, isspaceCp]

/-- A serialized member key re-parses to the same key text. -/
theorem parse_member_ser (s : Str) (f : Nat) (rest : Str)
    (h : ∀ c ∈ s, c ≠ 34 ∧ c ≠ 92) (hf : s.length < f) :
    parse_member f (34 :: s ++ 34 :: rest) = .ok (s, rest) := by
  unfold parse_member
  simp only [List.cons_append]
  rw [show skip_char 34 (34 :: (s ++ 34 :: rest)) = .ok (s ++ 34 :: rest) from by
    simp [skip_char, skip_space, List.dropWhile_cons, isspaceCp]]
  simp only [bind, Except.bind]
  rw [parse_qchars_plain s f rest h hf]
  dsimp only
  simp [skip_char, skip_space, List.dropWhile_cons, isspaceCp]

/-! ## Facts about the total serializer's output -/

/-- Unpacking the well-behaved string predicate. -/
theorem strOkB_facts (s : Str) (h : strOkB s = true) :
    ∀ c ∈ s, 31 < c ∧ c ≠ 34 ∧ c ≠ 92 := by
  intro c hc
  rw [strOkB, List.all_eq_true] at h
  have := h c hc
  simp at this
  omega

/-- Element membership in cstr output is NUL-free by construction. -/
theorem cstr_mem_ne_zero (s : Str) (c : Nat) (hc : c ∈ cstr s) : c ≠ 0 := by
  have := List.mem_takeWhile_imp hc
  simpa using this

/-- Code points of a serialized element list are never NUL. -/
theorem serElems_no_nul : ∀ (es : List json) (c : Nat), c ∈ serElems es → c ≠ 0 := by
  intro es
  induction es with
  | nil => intro c hc; simp [serElems] at hc
  | cons e rest ih =>
      intro c hc
      rw [serElems] at hc
      rcases List.mem_append.mp hc with hm | hm
      · rcases List.mem_append.mp hm with hm2 | hm2
        · exact cstr_mem_ne_zero _ c hm2
        · by_cases hre : rest.isEmpty <;> simp [hre] at hm2 <;> omega
      · exact ih c hm

/-- Code points of a serialized member list are never NUL. -/
theorem serMems_no_nul :
    ∀ (ms : List (Str × json)) (c : Nat), c ∈ serMems ms → c ≠ 0 := by
  intro ms
  induction ms with
  | nil => intro c hc; simp [serMems] at hc
  | cons m rest ih =>
      obtain ⟨k, v⟩ := m
      intro c hc
      rw [serMems] at hc
      simp only [List.cons_append, List.mem_cons, List.mem_append] at hc
      rcases hc with he | hm
      · omega
      · rcases hm with ((((h1 | h1) | h1) | h1) | h1)
        · exact cstr_mem_ne_zero _ c h1
        · simp at h1; omega
        · exact cstr_mem_ne_zero _ c h1
        · by_cases hre : rest.isEmpty <;> simp [hre] at h1 <;> omega
        · exact ih c h1

/-- Under the well-behaved predicate, no code point of a serialization is
NUL (so the c_str truncations of the source are the identity on it). -/
theorem serVal_no_nul (v : json) (hwf : wfRT v = true) :
    ∀ c ∈ serVal v, c ≠ 0 := by
  intro c hc
  match v with
  | .string s =>
      rw [serVal] at hc
      rcases List.mem_cons.mp hc with he | hm
      · omega
      · rcases List.mem_append.mp hm with h1 | h1
        · have := strOkB_facts s (by simpa [wfRT] using hwf) c h1
          omega
        · simp at h1; omega
  | .number_integer n =>
      rw [serVal] at hc
      rcases intToStr_chars n c hc with he | ⟨a, b⟩ <;> omega
  | .number_double d => simp [wfRT] at hwf
  | .boolean b =>
      rw [serVal] at hc
      cases b <;> simp at hc <;> omega
  | .null =>
      rw [serVal] at hc
      simp at hc
      omega
  | .invalid => simp [wfRT] at hwf
  | .array es =>
      rw [serVal] at hc
      rcases List.mem_cons.mp hc with he | hm
      · omega
      · rcases List.mem_append.mp hm with h1 | h1
        · exact serElems_no_nul es c h1
        · simp at h1; omega
  | .object ms =>
      rw [serVal] at hc
      rcases List.mem_cons.mp hc with he | hm
      · omega
      · rcases List.mem_append.mp hm with h1 | h1
        · exact serMems_no_nul ms c h1
        · simp at h1; omega

/-- The first code point of a serialization is not whitespace, not a
closing bracket and not NUL. -/
theorem serVal_head (v : json) (hwf : wfRT v = true) :
    ∃ c t, serVal v = c :: t ∧ isspaceCp c = false ∧ c ≠ 93 := by
  match v with
  | .string s => exact ⟨34, _, rfl, rfl, by omega⟩
  | .number_integer n =>
      rw [serVal, intToStr]
      by_cases hn : n < 0
      · rw [if_pos hn]
        exact ⟨45, _, rfl, rfl, by omega⟩
      · rw [if_neg hn]
        cases hD : natToDigits n.toNat with
        | nil => exact absurd hD (natToDigits_ne_nil _)
        | cons c t =>
            have hc : 48 ≤ c ∧ c ≤ 57 :=
              natToDigits_digits n.toNat c (by rw [hD]; exact List.mem_cons_self _ _)
            exact ⟨c, t, rfl, digit_not_space c hc.1 hc.2, by omega⟩
  | .number_double d => simp [wfRT] at hwf
  | .boolean b =>
      cases b
      · exact ⟨102, _, rfl, rfl, by omega⟩
      · exact ⟨116, _, rfl, rfl, by omega⟩
  | .null => exact ⟨110, _, rfl, rfl, by omega⟩
  | .invalid => simp [wfRT] at hwf
  | .array es => exact ⟨91, _, rfl, rfl, by omega⟩
  | .object ms => exact ⟨123, _, rfl, rfl, by omega⟩

/-- Unpacking well-formedness of an element list. -/
theorem wfRTElems_iff (es : List json) :
    wfRTElems es = true ↔ ∀ e ∈ es, wfRT e = true := by
  induction es with
  | nil => simp [wfRTElems]
  | cons e rest ih =>
      simp only [wfRTElems, Bool.and_eq_true, ih, List.mem_cons]
      constructor
      · rintro ⟨h1, h2⟩ x hx
        rcases hx with he | hm
        · rw [he]; exact h1
        · exact h2 x hm
      · intro h
        exact ⟨h e (Or.inl rfl), fun x hx => h x (Or.inr hx)⟩

/-- Unpacking well-formedness of a member list. -/
theorem wfRTMems_iff (ms : List (Str × json)) :
    wfRTMems ms = true ↔
      ∀ m ∈ ms, strOkB m.1 = true ∧ wfRT m.2 = true := by
  induction ms with
  | nil => simp [wfRTMems]
  | cons m rest ih =>
      obtain ⟨k, v⟩ := m
      simp only [wfRTMems, Bool.and_eq_true, ih, List.mem_cons]
      constructor
      · rintro ⟨⟨h1, h2⟩, h3⟩ x hx
        rcases hx with he | hm
        · rw [he]; exact ⟨h1, h2⟩
        · exact h3 x hm
      · intro h
        refine ⟨⟨(h (k, v) (Or.inl rfl)).1, (h (k, v) (Or.inl rfl)).2⟩, ?_⟩
        exact fun x hx => h x (Or.inr hx)

/-- Serializations of well-behaved values are nonempty. -/
theorem serVal_len_pos (v : json) (hwf : wfRT v = true) :
    1 ≤ (serVal v).length := by
  obtain ⟨c, t, he, _, _⟩ := serVal_head v hwf
  rw [he]
  simp

/-- Under well-formedness the c_str truncation inside the serializer is
the identity, so the element walk splits literally. -/
theorem serElems_cons (e : json) (rest : List json) (hwf : wfRT e = true) :
    serElems (e :: rest) =
      serVal e ++ (if rest.isEmpty then [] else [44]) ++ serElems rest := by
  rw [serElems, cstr_eq_self_of _ (serVal_no_nul e hwf)]

/-- The member walk splits literally under well-formedness of the head
member. -/
theorem serMems_cons (k : Str) (v : json) (rest : List (Str × json))
    (hk : strOkB k = true) (hwf : wfRT v = true) :
    serMems ((k, v) :: rest) =
      34 :: k ++ [34, 32, 58, 32] ++ serVal v ++
        (if rest.isEmpty then [] else [44]) ++ serMems rest := by
  rw [serMems, cstr_eq_self_of _ (serVal_no_nul v hwf),
    cstr_eq_self_of k (fun c hc => by
      have := strOkB_facts k hk c hc
      omega)]

/-- The serialized element list is at least as long as the element count. -/
theorem serElems_len_ge (es : List json) (hwf : ∀ e ∈ es, wfRT e = true) :
    es.length ≤ (serElems es).length := by
  induction es with
  | nil => simp [serElems]
  | cons e rest ih =>
      rw [serElems_cons e rest (hwf e (List.mem_cons_self _ _))]
      have h1 := serVal_len_pos e (hwf e (List.mem_cons_self _ _))
      have h2 := ih (fun x hx => hwf x (List.mem_cons_of_mem _ hx))
      by_cases hre : rest.isEmpty <;> simp [hre] <;> omega

/-- Each element's serialization is no longer than the whole element
walk. -/
theorem serElems_len_elem (es : List json) (hwf : ∀ e ∈ es, wfRT e = true) :
    ∀ e ∈ es, (serVal e).length ≤ (serElems es).length := by
  induction es with
  | nil => intro e he; simp at he
  | cons x rest ih =>
      intro e he
      rw [serElems_cons x rest (hwf x (List.mem_cons_self _ _))]
      rcases List.mem_cons.mp he with heq | hm
      · subst heq
        by_cases hre : rest.isEmpty <;> simp [hre]
      · have := ih (fun y hy => hwf y (List.mem_cons_of_mem _ hy)) e hm
        by_cases hre : rest.isEmpty <;> simp [hre] <;> omega

/-- The member-loop fuel bound is dominated by the member walk's length
plus one. -/
theorem serMems_len_fuel (ms : List (Str × json))
    (hwf : ∀ m ∈ ms, strOkB m.1 = true ∧ wfRT m.2 = true) :
    objFuel ms ≤ (serMems ms).length + 1 := by
  induction ms with
  | nil => simp [objFuel, serMems]
  | cons m rest ih =>
      obtain ⟨k, v⟩ := m
      have hm := hwf (k, v) (List.mem_cons_self _ _)
      rw [serMems_cons k v rest hm.1 hm.2]
      have h1 := serVal_len_pos v hm.2
      have h2 := ih (fun x hx => hwf x (List.mem_cons_of_mem _ hx))
      have h3 : objFuel ((k, v) :: rest) = k.length + 3 + objFuel rest := rfl
      by_cases hre : rest.isEmpty <;> simp [hre, h3] <;> omega

/-- Each member value's serialization is no longer than the whole member
walk. -/
theorem serMems_len_elem (ms : List (Str × json))
    (hwf : ∀ m ∈ ms, strOkB m.1 = true ∧ wfRT m.2 = true) :
    ∀ m ∈ ms, (serVal m.2).length ≤ (serMems ms).length := by
  induction ms with
  | nil => intro m hm; simp at hm
  | cons x rest ih =>
      intro m hm
      obtain ⟨k, v⟩ := x
      have hx := hwf (k, v) (List.mem_cons_self _ _)
      rw [serMems_cons k v rest hx.1 hx.2]
      rcases List.mem_cons.mp hm with heq | hmem
      · subst heq
        by_cases hre : rest.isEmpty <;> simp [hre] <;> omega
      · have := ih (fun y hy => hwf y (List.mem_cons_of_mem _ hy)) m hmem
        by_cases hre : rest.isEmpty <;> simp [hre] <;> omega

/-- parse_value ignores a leading whitespace code point (the peek skips
whitespace first). -/
theorem parse_value_space (f : Nat) (sp : Nat) (hsp : isspaceCp sp = true)
    (s : Str) : parse_value f (sp :: s) = parse_value f s := by
  cases f with
  | zero => rfl
  | succ f =>
      have hpk : peek_next_non_space (sp :: s) = peek_next_non_space s := by
        simp [peek_next_non_space, skip_space, List.dropWhile_cons, hsp]
      rw [parse_value, parse_value, hpk]

/-- The key order is asymmetric. -/
theorem keyLt_asymm (a b : Str) (h : keyLt a b = true) : keyLt b a = false := by
  by_contra hc
  rw [Bool.not_eq_false] at hc
  have := keyLt_trans a b a h hc
  rw [keyLt_irrefl] at this
  exact Bool.false_ne_true this

/-- Inserting a key larger than every key already present appends it at
the end (the std::map assignment the parser performs while walking a
serialized sorted member list). -/
theorem mapInsert_append_of_lt (k : Str) (v : json) :
    ∀ acc : List (Str × json), (∀ p ∈ acc, keyLt p.1 k = true) →
      mapInsert k v acc = acc ++ [(k, v)] := by
  intro acc
  induction acc with
  | nil => intro h; rfl
  | cons p rest ih =>
      intro h
      obtain ⟨k', v'⟩ := p
      have h1 : keyLt k' k = true := h (k', v') (List.mem_cons_self _ _)
      have h2 : keyLt k k' = false := keyLt_asymm k' k h1
      have h3 : ¬(k = k') := by
        intro he
        rw [he, keyLt_irrefl] at h1
        exact Bool.false_ne_true h1
      rw [mapInsert, if_neg (by simp [h2]), if_neg h3,
        ih (fun q hq => h q (List.mem_cons_of_mem _ hq))]
      rfl

/-- std::to_string never prints the empty string. -/
theorem intToStr_ne_nil (m : Int) : intToStr m ≠ [] := by
  unfold intToStr
  by_cases hm : m < 0
  · rw [if_pos hm]; simp
  · rw [if_neg hm]; exact natToDigits_ne_nil _

/-- parse_value routes a serialized 64-bit integer to the number parser
and recovers the value. -/
theorem parse_value_int (m : Int) (h1 : int64Min ≤ m) (h2 : m ≤ int64Max)
    (f : Nat) (hf : 1 ≤ f) (rest : Str) (hr : delimOkB rest = true) :
    parse_value f (intToStr m ++ rest) = .ok (.number_integer m, rest) := by
  cases f with
  | zero => omega
  | succ f =>
      obtain ⟨c, t, hI⟩ : ∃ c t, intToStr m = c :: t := by
        cases h : intToStr m with
        | nil => exact absurd h (intToStr_ne_nil m)
        | cons c t => exact ⟨c, t, rfl⟩
      have hc : c = 45 ∨ (48 ≤ c ∧ c ≤ 57) :=
        intToStr_chars m c (by rw [hI]; exact List.mem_cons_self _ _)
      have hsp : isspaceCp c = false := by
        rcases hc with h | ⟨a, b⟩
        · rw [h]; rfl
        · exact digit_not_space c a b
      have hpk : peek_next_non_space (intToStr m ++ rest) =
          (some c, intToStr m ++ rest) := by
        rw [hI]
        simp [peek_next_non_space, skip_space, List.dropWhile_cons, hsp]
      rw [parse_value, hpk]
      have h34 : ¬(c = 34) := by rcases hc with h | ⟨a, b⟩ <;> omega
      have h91 : ¬(c = 91) := by rcases hc with h | ⟨a, b⟩ <;> omega
      have hdig : (isDigitCp c || c = 45 || c = 46) = true := by
        rcases hc with h | ⟨a, b⟩ <;> simp [isDigitCp] <;> omega
      simp only [if_neg h34, if_neg h91, hdig, if_pos]
      exact parse_number_intToStr m h1 h2 rest hr

/-- parse_value routes the serialized true literal to the boolean parser. -/
theorem parse_value_true (f : Nat) (hf : 1 ≤ f) (rest : Str)
    (hr : delimOkB rest = true) :
    parse_value f ([116, 114, 117, 101] ++ rest) = .ok (.boolean true, rest) := by
  cases f with
  | zero => omega
  | succ f =>
      have hpk : peek_next_non_space ([116, 114, 117, 101] ++ rest) =
          (some 116, [116, 114, 117, 101] ++ rest) := by
        simp [peek_next_non_space, skip_space, List.dropWhile_cons, isspaceCp]
      rw [parse_value, hpk]
      simp only [show ¬((116:Nat) = 34) by omega, show ¬((116:Nat) = 91) by omega,
        show (isDigitCp 116 || (116:Nat) = 45 || (116:Nat) = 46) = false from rfl,
        show ¬((116:Nat) = 123) by omega,
        show ((116:Nat) = 84 || (116:Nat) = 116 || (116:Nat) = 70 ||
          (116:Nat) = 102) = true from rfl,
        if_neg, if_pos, Bool.false_eq_true, if_false]
      exact parse_bool_true rest hr

/-- parse_value routes the serialized false literal to the boolean
parser. -/
theorem parse_value_false (f : Nat) (hf : 1 ≤ f) (rest : Str)
    (hr : delimOkB rest = true) :
    parse_value f ([102, 97, 108, 115, 101] ++ rest) =
      .ok (.boolean false, rest) := by
  cases f with
  | zero => omega
  | succ f =>
      have hpk : peek_next_non_space ([102, 97, 108, 115, 101] ++ rest) =
          (some 102, [102, 97, 108, 115, 101] ++ rest) := by
        simp [peek_next_non_space, skip_space, List.dropWhile_cons, isspaceCp]
      rw [parse_value, hpk]
      simp only [show ¬((102:Nat) = 34) by omega, show ¬((102:Nat) = 91) by omega,
        show (isDigitCp 102 || (102:Nat) = 45 || (102:Nat) = 46) = false from rfl,
        show ¬((102:Nat) = 123) by omega,
        show ((102:Nat) = 84 || (102:Nat) = 116 || (102:Nat) = 70 ||
          (102:Nat) = 102) = true from rfl,
        if_neg, if_pos, Bool.false_eq_true, if_false]
      exact parse_bool_false rest hr

/-- parse_value routes the serialized null literal to the null parser. -/
theorem parse_value_null (f : Nat) (hf : 1 ≤ f) (rest : Str)
    (hr : delimOkB rest = true) :
    parse_value f ([110, 117, 108, 108] ++ rest) = .ok (.null, rest) := by
  cases f with
  | zero => omega
  | succ f =>
      have hpk : peek_next_non_space ([110, 117, 108, 108] ++ rest) =
          (some 110, [110, 117, 108, 108] ++ rest) := by
        simp [peek_next_non_space, skip_space, List.dropWhile_cons, isspaceCp]
      rw [parse_value, hpk]
      simp only [show ¬((110:Nat) = 34) by omega, show ¬((110:Nat) = 91) by omega,
        show (isDigitCp 110 || (110:Nat) = 45 || (110:Nat) = 46) = false from rfl,
        show ¬((110:Nat) = 123) by omega,
        show ((110:Nat) = 84 || (110:Nat) = 116 || (110:Nat) = 70 ||
          (110:Nat) = 102) = false from rfl,
        show ((110:Nat) = 110 || (110:Nat) = 78) = true from rfl,
        if_neg, if_pos, Bool.false_eq_true, if_false]
      exact parse_null_ser rest hr

/-- parse_value routes a serialized quote-and-backslash-free string to the
string parser and recovers the payload. -/
theorem parse_value_str (s : Str) (hs : strOkB s = true) (f : Nat)
    (hf : s.length + 2 ≤ f) (rest : Str) :
    parse_value f ((34 :: s ++ [34]) ++ rest) = .ok (.string s, rest) := by
  cases f with
  | zero => omega
  | succ f =>
      have hpk : peek_next_non_space ((34 :: s ++ [34]) ++ rest) =
          (some 34, (34 :: s ++ [34]) ++ rest) := by
        simp [peek_next_non_space, skip_space, List.dropWhile_cons, isspaceCp]
      rw [parse_value, hpk]
      simp only [if_pos rfl]
      have hshape : (34 :: s ++ [34]) ++ rest = 34 :: s ++ 34 :: rest := by
        simp
      rw [hshape]
      exact parse_string_ser s f rest
        (fun c hc => (strOkB_facts s hs c hc).2) (by omega)

/-- The member-loop fuel budget is always positive. -/
theorem objFuel_pos (ms : List (Str × json)) : 1 ≤ objFuel ms := by
  induction ms with
  | nil => simp [objFuel]
  | cons m rest ih =>
      have h : objFuel (m :: rest) = m.1.length + 3 + objFuel rest := rfl
      omega

/-- The array element loop walks a nonempty serialized element list,
appending the re-parsed elements to the accumulator and consuming the
closing bracket. -/
theorem parse_array_loop_ser (pv : Str → Except Err (json × Str)) :
    ∀ (es : List json), es ≠ [] → (∀ e ∈ es, wfRT e = true) →
      (∀ e ∈ es, ∀ r : Str, delimOkB r = true → pv (serVal e ++ r) = .ok (e, r)) →
      ∀ (g : Nat), es.length ≤ g → ∀ (acc : List json) (rest : Str),
        parse_array_loop pv g acc (serElems es ++ 93 :: rest) =
          .ok (acc ++ es, rest) := by
  intro es
  induction es with
  | nil => intro hne; exact absurd rfl hne
  | cons e es' ih =>
      intro _ hwf hpv g hg acc rest
      cases g with
      | zero => simp at hg
      | succ g =>
          rw [serElems_cons e es' (hwf e (List.mem_cons_self _ _))]
          by_cases hes : es' = []
          · subst hes
            have hstream :
                (serVal e ++ (if ([] : List json).isEmpty then [] else [44]) ++
                    serElems []) ++ 93 :: rest = serVal e ++ 93 :: rest := by
              simp [serElems]
            rw [hstream]
            rw [parse_array_loop]
            rw [hpv e (List.mem_cons_self _ _) (93 :: rest) rfl]
            have hpk : peek_next_non_space (93 :: rest) = (some 93, 93 :: rest) := by
              simp [peek_next_non_space, skip_space, List.dropWhile_cons, isspaceCp]
            simp only [bind, Except.bind, hpk]
            rw [if_pos trivial]
            rw [show skip_char 93 (93 :: rest) = .ok rest from by
              simp [skip_char, skip_space, List.dropWhile_cons, isspaceCp]]
            rfl
          · have hstream :
                (serVal e ++ (if es'.isEmpty then [] else [44]) ++ serElems es') ++
                    93 :: rest =
                  serVal e ++ 44 :: (serElems es' ++ 93 :: rest) := by
              rw [if_neg (by simpa [List.isEmpty_iff] using hes)]
              simp
            rw [hstream]
            rw [parse_array_loop]
            rw [hpv e (List.mem_cons_self _ _) (44 :: (serElems es' ++ 93 :: rest)) rfl]
            have hpk : peek_next_non_space (44 :: (serElems es' ++ 93 :: rest)) =
                (some 44, 44 :: (serElems es' ++ 93 :: rest)) := by
              simp [peek_next_non_space, skip_space, List.dropWhile_cons, isspaceCp]
            simp only [bind, Except.bind, hpk]
            rw [if_pos trivial]
            rw [show skip_char 44 (44 :: (serElems es' ++ 93 :: rest)) =
                .ok (serElems es' ++ 93 :: rest) from by
              simp [skip_char, skip_space, List.dropWhile_cons, isspaceCp]]
            have ihr := ih hes (fun x hx => hwf x (List.mem_cons_of_mem _ hx))
              (fun x hx r hr => hpv x (List.mem_cons_of_mem _ hx) r hr)
              g (by simp at hg ⊢; omega) (acc ++ [e]) rest
            simp only [bind, Except.bind]
            rw [ihr]
            simp

/-- The object member loop walks a serialized sorted member list,
re-parsing each member, inserting it (which appends, keys being strictly
increasing) and consuming the closing brace. -/
theorem parse_object_loop_ser (pv : Str → Except Err (json × Str)) :
    ∀ (ms : List (Str × json)),
      (∀ m ∈ ms, strOkB m.1 = true ∧ wfRT m.2 = true) →
      List.Pairwise keyR ms →
      (∀ m ∈ ms, ∀ r : Str, delimOkB r = true →
        pv (32 :: (serVal m.2 ++ r)) = .ok (m.2, r)) →
      ∀ (g : Nat), objFuel ms ≤ g → ∀ (acc : List (Str × json)) (rest : Str),
        (∀ p ∈ acc, ∀ q ∈ ms, keyLt p.1 q.1 = true) →
        parse_object_loop pv g acc (serMems ms ++ 125 :: rest) =
          .ok (acc ++ ms, rest) := by
  intro ms
  induction ms with
  | nil =>
      intro _ _ _ g hg acc rest _
      cases g with
      | zero => simp [objFuel] at hg
      | succ g =>
          have hstream : serMems [] ++ 125 :: rest = 125 :: rest := by
            simp [serMems]
          rw [hstream, parse_object_loop]
          have hpk : peek_next_non_space (125 :: rest) = (some 125, 125 :: rest) := by
            simp [peek_next_non_space, skip_space, List.dropWhile_cons, isspaceCp]
          simp only [hpk]
          rw [if_pos trivial]
          rw [show skip_char 125 (125 :: rest) = .ok rest from by
            simp [skip_char, skip_space, List.dropWhile_cons, isspaceCp]]
          simp [bind, Except.bind]
  | cons m ms' ih =>
      intro hwf hsort hpv g hg acc rest hacc
      obtain ⟨k, v⟩ := m
      have hm := hwf (k, v) (List.mem_cons_self _ _)
      have hfuel : objFuel ((k, v) :: ms') = k.length + 3 + objFuel ms' := rfl
      have hfpos : 1 ≤ objFuel ms' := objFuel_pos ms'
      cases g with
      | zero => omega
      | succ g =>
          rw [serMems_cons k v ms' hm.1 hm.2]
          have hR :
              (34 :: k ++ [34, 32, 58, 32] ++ serVal v ++
                  (if ms'.isEmpty then [] else [44]) ++ serMems ms') ++
                125 :: rest =
              34 :: k ++ 34 :: (32 :: 58 :: 32 ::
                (serVal v ++ ((if ms'.isEmpty then [] else [44]) ++
                  (serMems ms' ++ 125 :: rest)))) := by
            simp
          rw [hR, parse_object_loop]
          have hpk : peek_next_non_space
              (34 :: k ++ 34 :: (32 :: 58 :: 32 ::
                (serVal v ++ ((if ms'.isEmpty then [] else [44]) ++
                  (serMems ms' ++ 125 :: rest))))) =
              (some 34, 34 :: k ++ 34 :: (32 :: 58 :: 32 ::
                (serVal v ++ ((if ms'.isEmpty then [] else [44]) ++
                  (serMems ms' ++ 125 :: rest))))) := by
            simp [peek_next_non_space, skip_space, List.dropWhile_cons, isspaceCp]
          simp only [hpk]
          rw [if_pos trivial]
          rw [parse_member_ser k g _
            (fun c hc => (strOkB_facts k hm.1 c hc).2) (by omega)]
          simp only [bind, Except.bind]
          rw [show skip_char 58 (32 :: 58 :: 32 ::
              (serVal v ++ ((if ms'.isEmpty then [] else [44]) ++
                (serMems ms' ++ 125 :: rest)))) =
              .ok (32 :: (serVal v ++ ((if ms'.isEmpty then [] else [44]) ++
                (serMems ms' ++ 125 :: rest)))) from by
            simp [skip_char, skip_space, List.dropWhile_cons, isspaceCp]]
          by_cases hes : ms' = []
          · subst hes
            have hr : ((if ([] : List (Str × json)).isEmpty then [] else [44]) ++
                (serMems [] ++ 125 :: rest)) = 125 :: rest := by
              simp [serMems]
            rw [hr]
            dsimp only
            rw [show pv (32 :: (serVal v ++ 125 :: rest)) =
                Except.ok (v, 125 :: rest) from
              hpv (k, v) (List.mem_cons_self _ _) (125 :: rest) rfl]
            dsimp only
            rw [mapInsert_append_of_lt k v acc
              (fun p hp => hacc p hp (k, v) (List.mem_cons_self _ _))]
            have hstep := ih (by simp) (by simp) (by simp) g
              (by simp [objFuel]; omega) (acc ++ [(k, v)]) rest (by simp)
            simp only [serMems, List.nil_append] at hstep
            rw [hstep]
            simp
          · have hr : ((if ms'.isEmpty then [] else [44]) ++
                (serMems ms' ++ 125 :: rest)) =
                44 :: (serMems ms' ++ 125 :: rest) := by
              rw [if_neg (by simpa [List.isEmpty_iff] using hes)]
              rfl
            rw [hr]
            dsimp only
            rw [show pv (32 :: (serVal v ++ 44 :: (serMems ms' ++ 125 :: rest))) =
                Except.ok (v, 44 :: (serMems ms' ++ 125 :: rest)) from
              hpv (k, v) (List.mem_cons_self _ _)
                (44 :: (serMems ms' ++ 125 :: rest)) rfl]
            dsimp only
            rw [mapInsert_append_of_lt k v acc
              (fun p hp => hacc p hp (k, v) (List.mem_cons_self _ _))]
            have hsort' := (List.pairwise_cons.mp hsort)
            obtain ⟨g2, rfl⟩ : ∃ g2, g = g2 + 1 := ⟨g - 1, by omega⟩
            have ihr := ih (fun x hx => hwf x (List.mem_cons_of_mem _ hx))
              hsort'.2
              (fun x hx r hr2 => hpv x (List.mem_cons_of_mem _ hx) r hr2)
              g2 (by omega) (acc ++ [(k, v)]) rest
              (by
                intro p hp q hq
                rcases List.mem_append.mp hp with hp1 | hp2
                · exact hacc p hp1 q (List.mem_cons_of_mem _ hq)
                · simp at hp2
                  rw [hp2]
                  exact hsort'.1 q hq)
            have hloop : parse_object_loop pv (g2 + 1) (acc ++ [(k, v)])
                (44 :: (serMems ms' ++ 125 :: rest)) =
                parse_object_loop pv g2 (acc ++ [(k, v)])
                  (serMems ms' ++ 125 :: rest) := rfl
            rw [hloop, ihr]
            simp

/-- parse_array re-parses a serialized well-behaved element list. -/
theorem parse_array_core_ser (pv : Str → Except Err (json × Str))
    (es : List json) (hwf : ∀ e ∈ es, wfRT e = true)
    (hpv : ∀ e ∈ es, ∀ r : Str, delimOkB r = true → pv (serVal e ++ r) = .ok (e, r))
    (g : Nat) (hg : es.length ≤ g) (rest : Str) :
    parse_array_core pv g (91 :: (serElems es ++ 93 :: rest)) =
      .ok (.array es, rest) := by
  cases es with
  | nil => rfl
  | cons e es' =>
      have hwfe : wfRT e = true := hwf e (List.mem_cons_self _ _)
      obtain ⟨c, t, hce, hcsp, hc93⟩ := serVal_head e hwfe
      have hpk2 : peek_next_non_space (serElems (e :: es') ++ 93 :: rest) =
          (some c, serElems (e :: es') ++ 93 :: rest) := by
        rw [serElems_cons e es' hwfe, hce]
        simp [peek_next_non_space, skip_space, List.dropWhile_cons, hcsp]
      unfold parse_array_core
      rw [show skip_char 91 (91 :: (serElems (e :: es') ++ 93 :: rest)) =
          .ok (serElems (e :: es') ++ 93 :: rest) from by
        simp [skip_char, skip_space, List.dropWhile_cons, isspaceCp]]
      simp only [bind, Except.bind]
      rw [hpk2]
      dsimp only
      rw [if_neg (show ¬(some c = some 93) from by simp [hc93])]
      rw [parse_array_loop_ser pv (e :: es') (by simp) hwf hpv g hg [] rest]
      simp

/-- parse_object re-parses a serialized well-behaved sorted member list. -/
theorem parse_object_core_ser (pv : Str → Except Err (json × Str))
    (ms : List (Str × json))
    (hmem : ∀ m ∈ ms, strOkB m.1 = true ∧ wfRT m.2 = true)
    (hsort : List.Pairwise keyR ms)
    (hpv : ∀ m ∈ ms, ∀ r : Str, delimOkB r = true →
      pv (32 :: (serVal m.2 ++ r)) = .ok (m.2, r))
    (g : Nat) (hg : objFuel ms ≤ g) (rest : Str) :
    parse_object_core pv g (123 :: (serMems ms ++ 125 :: rest)) =
      .ok (.object ms, rest) := by
  unfold parse_object_core
  rw [show skip_char 123 (123 :: (serMems ms ++ 125 :: rest)) =
      .ok (serMems ms ++ 125 :: rest) from by
    simp [skip_char, skip_space, List.dropWhile_cons, isspaceCp]]
  simp only [bind, Except.bind]
  rw [parse_object_loop_ser pv ms hmem hsort hpv g hg [] rest (by simp)]
  simp

/-- The heart of the round-trip: parse_value re-parses the serialization
of any well-behaved tree, given enough fuel and a delimiter-headed
remainder. -/
theorem parse_value_ser :
    ∀ v : json, wfRT v = true → ∀ (f : Nat) (rest : Str),
      (serVal v).length ≤ f → delimOkB rest = true →
      parse_value f (serVal v ++ rest) = .ok (v, rest) := by
  intro v
  induction v using json.indOn with
  | hstr s =>
      intro hwf f rest hf hr
      have hs : strOkB s = true := hwf
      have hlen : (serVal (json.string s)).length = s.length + 2 := by
        simp [serVal]
      exact parse_value_str s hs f (by rw [hlen] at hf; omega) rest
  | hint n =>
      intro hwf f rest hf hr
      have hrange : int64Min ≤ n ∧ n ≤ int64Max := by
        have h := hwf
        rw [show wfRT (json.number_integer n) =
            (decide (int64Min ≤ n) && decide (n ≤ int64Max)) from rfl,
          Bool.and_eq_true, decide_eq_true_eq, decide_eq_true_eq] at h
        exact h
      have hpos : 1 ≤ (serVal (json.number_integer n)).length := by
        cases hI : intToStr n with
        | nil => exact absurd hI (intToStr_ne_nil n)
        | cons a b =>
            rw [show serVal (json.number_integer n) = intToStr n from rfl, hI]
            simp
      exact parse_value_int n hrange.1 hrange.2 f (by omega) rest hr
  | hdbl d =>
      intro hwf f rest hf hr
      simp [wfRT] at hwf
  | hbool b =>
      intro hwf f rest hf hr
      cases b with
      | true =>
          have hlen : (serVal (json.boolean true)).length = 4 := rfl
          exact parse_value_true f (by omega) rest hr
      | false =>
          have hlen : (serVal (json.boolean false)).length = 5 := rfl
          exact parse_value_false f (by omega) rest hr
  | hnull =>
      intro hwf f rest hf hr
      have hlen : (serVal json.null).length = 4 := rfl
      exact parse_value_null f (by omega) rest hr
  | hinv =>
      intro hwf f rest hf hr
      simp [wfRT] at hwf
  | harr es ih =>
      intro hwf f rest hf hr
      have hwfe : ∀ e ∈ es, wfRT e = true := (wfRTElems_iff es).mp hwf
      have hlen : (serVal (json.array es)).length = (serElems es).length + 2 := by
        simp [serVal]
      cases f with
      | zero => exact absurd hf (by rw [hlen]; omega)
      | succ f =>
          have hstream : serVal (json.array es) ++ rest =
              91 :: (serElems es ++ 93 :: rest) := by
            simp [serVal]
          rw [hstream]
          rw [show parse_value (f + 1) (91 :: (serElems es ++ 93 :: rest)) =
              parse_array_core (parse_value f) f
                (91 :: (serElems es ++ 93 :: rest)) from rfl]
          exact parse_array_core_ser (parse_value f) es hwfe
            (fun e he r hr2 => ih e he (hwfe e he) f r
              (by
                have h1 := serElems_len_elem es hwfe e he
                rw [hlen] at hf
                omega) hr2)
            f (by
              have h2 := serElems_len_ge es hwfe
              rw [hlen] at hf
              omega) rest
  | hobj ms ih =>
      intro hwf f rest hf hr
      have hso : sortedKeysB ms = true ∧ wfRTMems ms = true := by
        have h := hwf
        rw [show wfRT (json.object ms) = (sortedKeysB ms && wfRTMems ms) from rfl,
          Bool.and_eq_true] at h
        exact h
      have hmem := (wfRTMems_iff ms).mp hso.2
      have hlen : (serVal (json.object ms)).length = (serMems ms).length + 2 := by
        simp [serVal]
      cases f with
      | zero => exact absurd hf (by rw [hlen]; omega)
      | succ f =>
          have hstream : serVal (json.object ms) ++ rest =
              123 :: (serMems ms ++ 125 :: rest) := by
            simp [serVal]
          rw [hstream]
          rw [show parse_value (f + 1) (123 :: (serMems ms ++ 125 :: rest)) =
              parse_object_core (parse_value f) f
                (123 :: (serMems ms ++ 125 :: rest)) from rfl]
          exact parse_object_core_ser (parse_value f) ms hmem
            ((sortedKeysB_iff_pairwise ms).mp hso.1)
            (fun m hm r hr2 => by
              rw [parse_value_space f 32 rfl]
              exact ih m hm (hmem m hm).2 f r
                (by
                  have h1 := serMems_len_elem ms hmem m hm
                  rw [hlen] at hf
                  omega) hr2)
            f (by
              have h2 := serMems_len_fuel ms hmem
              rw [hlen] at hf
              omega) rest

/-- A list of no-invalid elements passes the element walk. -/
theorem noInvalidElems_of (es : List json)
    (h : ∀ e ∈ es, noInvalidB e = true) : noInvalidElems es = true := by
  induction es with
  | nil => rfl
  | cons e es2 ih =>
      rw [noInvalidElems, Bool.and_eq_true]
      exact ⟨h e (List.mem_cons_self _ _),
        ih (fun x hx => h x (List.mem_cons_of_mem _ hx))⟩

/-- A list of no-invalid member values passes the member walk. -/
theorem noInvalidMems_of (ms : List (Str × json))
    (h : ∀ m ∈ ms, noInvalidB m.2 = true) : noInvalidMems ms = true := by
  induction ms with
  | nil => rfl
  | cons m ms2 ih =>
      obtain ⟨k, v⟩ := m
      rw [noInvalidMems, Bool.and_eq_true]
      exact ⟨h (k, v) (List.mem_cons_self _ _),
        ih (fun x hx => h x (List.mem_cons_of_mem _ hx))⟩

/-- Well-behaved trees contain no Invalid node, so to_string succeeds on
them. -/
theorem wfRT_noInvalid : ∀ v : json, wfRT v = true → noInvalidB v = true := by
  intro v
  induction v using json.indOn with
  | hstr s => intro _; rfl
  | hint n => intro _; rfl
  | hdbl d => intro h; simp [wfRT] at h
  | hbool b => intro _; rfl
  | hnull => intro _; rfl
  | hinv => intro h; simp [wfRT] at h
  | harr es ih =>
      intro h
      have he : ∀ e ∈ es, wfRT e = true := (wfRTElems_iff es).mp h
      exact noInvalidElems_of es (fun e hee => ih e hee (he e hee))
  | hobj ms ih =>
      intro h
      have hso : sortedKeysB ms = true ∧ wfRTMems ms = true := by
        rw [show wfRT (json.object ms) = (sortedKeysB ms && wfRTMems ms) from rfl,
          Bool.and_eq_true] at h
        exact h
      have hmem := (wfRTMems_iff ms).mp hso.2
      exact noInvalidMems_of ms (fun m hm => ih m hm (hmem m hm).2)

/-- C4 (corrected): the round-trip claim as stated fails, because parse
rejects every scalar root (see c4_counterexample); restricted to trees
with an object or array root it holds on the well-behaved subset.  For
every tree v whose root is an object or an array, whose string payloads
and object keys avoid quotes, backslashes and control characters, whose
integers are in the signed 64-bit range, whose object member lists are
strictly key-sorted (the invariant every std::map-backed C++ tree has by
construction), and which has no DoubleNumber and no Invalid node:
to_string(v) succeeds, and parsing its output returns exactly v. -/
theorem c4_roundtrip (v : json) (hwf : wfRT v = true)
    (hroot : (∃ ms, v = json.object ms) ∨ (∃ es, v = json.array es)) :
    json.to_string v = .ok (serVal v) ∧ parse (serVal v) = .ok v := by
  refine ⟨to_string_eq_serVal v (wfRT_noInvalid v hwf), ?_⟩
  rcases hroot with ⟨ms, rfl⟩ | ⟨es, rfl⟩
  · have hso : sortedKeysB ms = true ∧ wfRTMems ms = true := by
      rw [show wfRT (json.object ms) = (sortedKeysB ms && wfRTMems ms) from rfl,
        Bool.and_eq_true] at hwf
      exact hwf
    have hmem := (wfRTMems_iff ms).mp hso.2
    have hlen : (serVal (json.object ms)).length = (serMems ms).length + 2 := by
      simp [serVal]
    unfold parse
    rw [show parse_root ((serVal (json.object ms)).length + 1)
        (serVal (json.object ms)) =
        parse_object_core (parse_value ((serVal (json.object ms)).length + 1))
          ((serVal (json.object ms)).length + 1)
          (123 :: (serMems ms ++ 125 :: ([] : Str))) from rfl]
    rw [parse_object_core_ser
      (parse_value ((serVal (json.object ms)).length + 1)) ms hmem
      ((sortedKeysB_iff_pairwise ms).mp hso.1)
      (fun m hm r hr2 => by
        rw [parse_value_space ((serVal (json.object ms)).length + 1) 32 rfl]
        exact parse_value_ser m.2 (hmem m hm).2
          ((serVal (json.object ms)).length + 1) r
          (by
            have h1 := serMems_len_elem ms hmem m hm
            rw [hlen]
            omega) hr2)
      ((serVal (json.object ms)).length + 1)
      (by
        have h2 := serMems_len_fuel ms hmem
        rw [hlen]
        omega) []]
    rfl
  · have hwfe : ∀ e ∈ es, wfRT e = true := (wfRTElems_iff es).mp hwf
    have hlen : (serVal (json.array es)).length = (serElems es).length + 2 := by
      simp [serVal]
    unfold parse
    rw [show parse_root ((serVal (json.array es)).length + 1)
        (serVal (json.array es)) =
        parse_array_core (parse_value ((serVal (json.array es)).length + 1))
          ((serVal (json.array es)).length + 1)
          (91 :: (serElems es ++ 93 :: ([] : Str))) from rfl]
    rw [parse_array_core_ser
      (parse_value ((serVal (json.array es)).length + 1)) es hwfe
      (fun e he r hr2 => parse_value_ser e (hwfe e he)
        ((serVal (json.array es)).length + 1) r
        (by
          have h1 := serElems_len_elem es hwfe e he
          rw [hlen]
          omega) hr2)
      ((serVal (json.array es)).length + 1)
      (by
        have h2 := serElems_len_ge es hwfe
        rw [hlen]
        omega) []]
    rfl

/-- C4 witness: the amended round-trip theorem applied to the concrete
tree for the text {"a" : 1, "b" : ["x", null]}, every hypothesis
discharged by evaluation. -/
theorem c4_roundtrip_witness :
    wfRT (json.object [([97], json.number_integer 1),
        ([98], json.array [json.string [120], json.null])]) = true ∧
    (json.to_string (json.object [([97], json.number_integer 1),
        ([98], json.array [json.string [120], json.null])]) =
      .ok (serVal (json.object [([97], json.number_integer 1),
        ([98], json.array [json.string [120], json.null])])) ∧
     parse (serVal (json.object [([97], json.number_integer 1),
        ([98], json.array [json.string [120], json.null])])) =
      .ok (json.object [([97], json.number_integer 1),
        ([98], json.array [json.string [120], json.null])])) :=
  ⟨by decide, c4_roundtrip _ (by decide) (Or.inl ⟨_, rfl⟩)⟩

end TinyJson
